import Mathlib

/-!
# Verification of `publish_netcdf.py`

A shallow embedding of the NetCDF publication/synchronization script.  The
script keeps a THREDDS catalog directory in sync with public HydroShare
resources stored in iRODS:

* `get_latest_resource_timestamp` resolves the newest data-object
  modification time inside an iRODS collection;
* `scan_source` inventories the public NetCDF-bearing collections under the
  iRODS proxy path;
* `scan_destination` inventories published resources under the catalog path;
* `publish_resource` copies one resource (`iget -rf`), normalizes
  permissions and names, and stamps the destination mtime;
* `replace_spaces_in_names` renames children bottom-up, replacing spaces
  with double underscores;
* `sync_resources` drives publication and orphan removal.

Remote collections are modelled by the inductive tree `RemoteNode`; the
destination filesystem tree by `Entry` (names plus permission modes), with
`os.walk` modelled by `walkFrom` (pre-order triples of root path, directory
names and file names) and `os.rename` by `renameAt` (rename addressed by the
recorded root path).  Timestamps are integers; subprocess results and
filesystem failures enter as explicit parameters ("oracles"), so stateful
code becomes explicit state passing.
-/

/-- Modification times (`datetime.datetime` in the source) are modelled as
integers; the code only compares them and copies them around. -/
abbrev Timestamp := Int

/-! ## Module-level constants (lines 16-21 of the source) -/

/-- `RESOURCE_ID_GLOB = "????????????????????????????????"` (32 wildcard
characters). -/
def RESOURCE_ID_GLOB : String := "????????????????????????????????"

/-- `EXCLUDED = ["bags", "temp", "zips"]` -/
def EXCLUDED : List String := ["bags", "temp", "zips"]

/-- `IS_PUBLIC_KEY = "isPublic"` -/
def IS_PUBLIC_KEY : String := "isPublic"

/-- `IS_PUBLIC_VALUE = "true"` -/
def IS_PUBLIC_VALUE : String := "true"

/-- `NETCDF_EXTENSION = ".nc"` -/
def NETCDF_EXTENSION : String := ".nc"

/-- `FILE_MODE = S_IRWXU | S_IRGRP | S_IXGRP | S_IROTH | S_IXOTH` = `0o755`. -/
def FILE_MODE : Nat := 0o755

/-! ## Remote (iRODS) trees -/

/-- A node of an iRODS collection tree: either a data object with its
`modify_time`, or a (sub)collection with its children. -/
inductive RemoteNode where
  | dataObject (name : String) (modify_time : Timestamp)
  | coll (name : String) (children : List RemoteNode)
deriving Repr

/-- The data objects directly inside a child list (one level, no recursion). -/
def objsHere : List RemoteNode → List (String × Timestamp)
  | [] => []
  | .dataObject n t :: rest => (n, t) :: objsHere rest
  | .coll _ _ :: rest => objsHere rest

mutual

/-- All data objects reachable from a node, in `collection.walk()` order:
the collection's own objects first, then each subcollection's subtree in
order.  This is the flattening performed at lines 107-110 and 188-192 of
the source. -/
def walkObjects : RemoteNode → List (String × Timestamp)
  | .dataObject _ _ => []
  | .coll _ children => objsHere children ++ walkObjectsList children

/-- Pointwise extension of `walkObjects` to a child list (data objects
contribute nothing at this stage; they were already collected by
`objsHere`). -/
def walkObjectsList : List RemoteNode → List (String × Timestamp)
  | [] => []
  | c :: cs => walkObjects c ++ walkObjectsList cs

end

/-- `get_latest_resource_timestamp` (lines 89-114): walk the collection,
collect every data object's `modify_time`, and return `max(timestamps)`.
Python's `max` raises `ValueError` on an empty sequence; that failure is
the `.error` case.  The iRODS session plumbing is dropped: the function is
a pure function of the collection tree it walks. -/
def get_latest_resource_timestamp (collection : RemoteNode) : Except String Timestamp :=
  let timestamps := (walkObjects collection).map Prod.snd
  match timestamps with
  | [] => .error "max() arg is an empty sequence"
  | t :: rest => .ok (rest.foldl max t)

/-! Helper lemmas about `List.foldl max` (Python's `max` over a nonempty
list). -/

theorem foldl_max_le_self (l : List Timestamp) (a : Timestamp) :
    a ≤ l.foldl max a := by
  induction l generalizing a with
  | nil => simp
  | cons x xs ih =>
    simp only [List.foldl_cons]
    exact le_trans (le_max_left a x) (ih (max a x))

theorem foldl_max_mem (l : List Timestamp) (a : Timestamp) :
    l.foldl max a = a ∨ l.foldl max a ∈ l := by
  induction l generalizing a with
  | nil => simp
  | cons x xs ih =>
    simp only [List.foldl_cons]
    rcases ih (max a x) with h | h
    · rcases max_cases a x with ⟨he, _⟩ | ⟨he, _⟩
      · exact Or.inl (by rw [h, he])
      · exact Or.inr (by rw [h, he]; exact List.mem_cons_self x xs)
    · exact Or.inr (List.mem_cons_of_mem x h)

theorem le_foldl_max (l : List Timestamp) (a : Timestamp) (x : Timestamp)
    (hx : x ∈ l) : x ≤ l.foldl max a := by
  induction l generalizing a with
  | nil => cases hx
  | cons y ys ih =>
    simp only [List.foldl_cons]
    rcases List.mem_cons.mp hx with rfl | h
    · exact le_trans (le_max_right a x) (foldl_max_le_self ys (max a x))
    · exact ih (max a y) h

/-- **C6**: `get_latest_resource_timestamp` fails (Python `ValueError` from
`max` on an empty sequence) exactly when the collection contains zero data
objects, never returning a default; and whenever it succeeds, the returned
value is the maximum of the contained data objects' modification times (it
is one of them, and no modification time exceeds it). -/
theorem get_latest_timestamp_spec (collection : RemoteNode) :
    ((get_latest_resource_timestamp collection).isOk = false ↔
      walkObjects collection = []) ∧
    (∀ t, get_latest_resource_timestamp collection = .ok t →
      t ∈ (walkObjects collection).map Prod.snd ∧
      ∀ s ∈ (walkObjects collection).map Prod.snd, s ≤ t) := by
  constructor
  · unfold get_latest_resource_timestamp
    cases h : (walkObjects collection).map Prod.snd with
    | nil =>
      simp only [h, Except.isOk]
      constructor
      · intro _; exact List.map_eq_nil_iff.mp h
      · intro _; rfl
    | cons t rest =>
      simp only [h, Except.isOk]
      constructor
      · intro hfalse; cases hfalse
      · intro hnil; rw [hnil] at h; cases h
  · intro t ht
    unfold get_latest_resource_timestamp at ht
    cases h : (walkObjects collection).map Prod.snd with
    | nil => rw [h] at ht; cases ht
    | cons x rest =>
      rw [h] at ht
      have hres : rest.foldl max x = t := by
        cases ht; rfl
      constructor
      · rw [← hres]
        rcases foldl_max_mem rest x with he | he
        · rw [he]; exact List.mem_cons_self x rest
        · exact List.mem_cons_of_mem x he
      · intro s hs
        rw [← hres]
        rcases List.mem_cons.mp hs with rfl | hmem
        · exact foldl_max_le_self rest s
        · exact le_foldl_max rest x s hmem

/-- Witness for C6 at a concrete collection: a collection holding data
objects with times 3 and 7 (one nested) resolves to 7; the failure side is
exercised by the empty collection. -/
theorem get_latest_timestamp_spec_witness :
    (7 : Timestamp) ∈ (walkObjects (.coll "r" [.dataObject "a.nc" 3,
        .coll "sub" [.dataObject "b.nc" 7]])).map Prod.snd ∧
    (∀ s ∈ (walkObjects (.coll "r" [.dataObject "a.nc" 3,
        .coll "sub" [.dataObject "b.nc" 7]])).map Prod.snd, s ≤ 7) := by
  exact (get_latest_timestamp_spec (.coll "r" [.dataObject "a.nc" 3,
    .coll "sub" [.dataObject "b.nc" 7]])).2 7 (by rfl)

/-! ## Destination filesystem trees

`replace_spaces_in_names` (lines 54-86) walks the destination tree with
`os.walk`, reverses the walk (bottom-up), and renames every child whose
name contains a space.  We model a directory tree with permission modes
(for `rchmod`), `os.walk` as `walkFrom` (pre-order list of
root-path/dir-names/file-names triples), and `os.rename` as `renameAt`,
which renames the children of the directory addressed by the recorded
root path inside an evolving tree. -/

/-- A destination filesystem entry: a file or a directory, with its name
and permission mode. -/
inductive Entry where
  | file (name : String) (mode : Nat)
  | dir (name : String) (mode : Nat) (children : List Entry)
deriving Repr

/-- The name of an entry. -/
def Entry.name : Entry → String
  | .file n _ => n
  | .dir n _ _ => n

/-- Rename an entry (what `os.rename` does to the entry itself). -/
def Entry.setName : Entry → String → Entry
  | .file _ m, n => .file n m
  | .dir _ m cs, n => .dir n m cs

/-- Replace every space by a double underscore in a list of characters:
the effect of Python's `name.replace(" ", "__")`. -/
def expandSpaces : List Char → List Char
  | [] => []
  | c :: rest => (if c = ' ' then ['_', '_'] else [c]) ++ expandSpaces rest

/-- `name.replace(" ", "__")` (lines 76 and 80). -/
def stripName (s : String) : String := ⟨expandSpaces s.data⟩

/-- `" " in name` (lines 75 and 79): the name contains a space. -/
def hasSpace (s : String) : Bool := s.data.contains ' '

/-- The file names directly inside a child list (the `files` component of
an `os.walk` triple). -/
def fileNamesOf : List Entry → List String
  | [] => []
  | .file n _ :: rest => n :: fileNamesOf rest
  | .dir _ _ _ :: rest => fileNamesOf rest

/-- The directory names directly inside a child list (the `dirs` component
of an `os.walk` triple). -/
def dirNamesOf : List Entry → List String
  | [] => []
  | .file _ _ :: rest => dirNamesOf rest
  | .dir n _ _ :: rest => n :: dirNamesOf rest

/-- One `(root, dirs, files)` triple produced by `os.walk`; `root` is the
path of the walked directory relative to the starting path. -/
structure WalkItem where
  root : List String
  dirNames : List String
  fileNames : List String
deriving Repr

mutual

/-- `list(os.walk(path))` (line 71): pre-order list of walk triples for the
directory at relative path `pr`.  Walking a file yields nothing, as
`os.walk` does on a non-directory. -/
def walkFrom : List String → Entry → List WalkItem
  | _, .file _ _ => []
  | pr, .dir _ _ cs => ⟨pr, dirNamesOf cs, fileNamesOf cs⟩ :: walkFromList pr cs

/-- Walk every child of a directory at path `pr`, each at path
`pr ++ [child name]`. -/
def walkFromList : List String → List Entry → List WalkItem
  | _, [] => []
  | pr, e :: es => walkFrom (pr ++ [e.name]) e ++ walkFromList pr es

end

/-- Rename the children named `a` to `b` in a child list (the effect of
`os.rename(os.path.join(root, a), os.path.join(root, b))` on the directory
`root` itself). -/
def renameTops (a b : String) : List Entry → List Entry
  | [] => []
  | e :: es => (if e.name = a then e.setName b else e) :: renameTops a b es

mutual

/-- `os.rename` addressed by a recorded walk path: inside the directory
reached from `t` by following `path`, rename the children named `a` to
`b`.  A path component selects the children carrying that name; renaming
at a path that no longer resolves is a no-op. -/
def renameAt : Entry → List String → String → String → Entry
  | .file n m, _, _, _ => .file n m
  | .dir n m cs, [], a, b => .dir n m (renameTops a b cs)
  | .dir n m cs, c :: p, a, b => .dir n m (renameAtList cs c p a b)

/-- Descend into the children named `c` and continue renaming along `p`. -/
def renameAtList : List Entry → String → List String → String → String → List Entry
  | [], _, _, _, _ => []
  | e :: es, c, p, a, b =>
      (if e.name = c then renameAt e p a b else e) :: renameAtList es c p a b

end

/-- One iteration of the inner loops of `replace_spaces_in_names`
(lines 74-81): if the recorded name `x` contains a space, rename it under
the recorded root, else leave the tree alone. -/
def renameStep (root : List String) (t : Entry) (x : String) : Entry :=
  if hasSpace x then renameAt t root x (stripName x) else t

/-- Process one walk triple: rename the spaced file names, then the spaced
directory names, under the triple's root (lines 73-81). -/
def applyItem (t : Entry) (it : WalkItem) : Entry :=
  let t1 := it.fileNames.foldl (renameStep it.root) t
  it.dirNames.foldl (renameStep it.root) t1

/-- Fold a list of walk triples over the tree. -/
def applyItems (t : Entry) (its : List WalkItem) : Entry := its.foldl applyItem t

/-- `replace_spaces_in_names(path)` (lines 54-86): take the full walk of
the tree up front, reverse it (deepest first), and process each triple in
order.  The rename counter only feeds a log message and is not modelled. -/
def replace_spaces_in_names (path : Entry) : Entry :=
  applyItems path ((walkFrom [] path).reverse)

mutual

/-- Whether an entry exists at the given relative path below `t`. -/
def existsAtPath : Entry → List String → Bool
  | _, [] => true
  | .file _ _, _ :: _ => false
  | .dir _ _ cs, n :: p => existsAtPathList cs n p

/-- Whether some child named `n` continues to an entry along `p`. -/
def existsAtPathList : List Entry → String → List String → Bool
  | [], _, _ => false
  | e :: es, n, p => (decide (e.name = n) && existsAtPath e p) || existsAtPathList es n p

end

/-- The purely structural bottom-up rename: used as the specification the
walk-based traversal is proved to implement. -/
def stripGuardName (n : String) : String := if hasSpace n then stripName n else n

mutual

/-- Rename an entry and everything below it, structurally. -/
def stripAll : Entry → Entry
  | .file n m => .file (stripGuardName n) m
  | .dir n m cs => .dir (stripGuardName n) m (stripAllList cs)

/-- Pointwise `stripAll` on a child list. -/
def stripAllList : List Entry → List Entry
  | [] => []
  | e :: es => stripAll e :: stripAllList es

end

/-- Rename everything strictly below an entry (the entry's own name is the
walked path and is not renamed). -/
def stripBelow : Entry → Entry
  | .file n m => .file n m
  | .dir n m cs => .dir n m (stripAllList cs)

-- Concrete checks that the operational traversal does what is expected.
example :
    replace_spaces_in_names (.dir "cat" 0 [.dir "a b" 7 [.file "c d.nc" 5]]) =
      .dir "cat" 0 [.dir "a__b" 7 [.file "c__d.nc" 5]] := by rfl

example :
    existsAtPath (.dir "cat" 0 [.dir "a__b" 7 [.file "c__d.nc" 5]])
      ["a__b", "c__d.nc"] = true := by rfl

/-! ### Basic lemmas about the rename machinery -/

theorem setName_name (e : Entry) (s : String) : (e.setName s).name = s := by
  cases e <;> rfl

theorem renameAt_name (e : Entry) (p : List String) (a b : String) :
    (renameAt e p a b).name = e.name := by
  cases e with
  | file n m => rfl
  | dir n m cs => cases p <;> rfl

theorem renameStep_name (r : List String) (t : Entry) (x : String) :
    (renameStep r t x).name = t.name := by
  unfold renameStep
  split
  · exact renameAt_name t r x (stripName x)
  · rfl

theorem foldl_renameStep_name (xs : List String) (r : List String) (t : Entry) :
    (xs.foldl (renameStep r) t).name = t.name := by
  induction xs generalizing t with
  | nil => rfl
  | cons x rest ih =>
    simp only [List.foldl_cons]
    rw [ih (renameStep r t x), renameStep_name]

theorem applyItem_name (t : Entry) (it : WalkItem) :
    (applyItem t it).name = t.name := by
  unfold applyItem
  rw [foldl_renameStep_name, foldl_renameStep_name]

theorem applyItems_name (t : Entry) (its : List WalkItem) :
    (applyItems t its).name = t.name := by
  induction its generalizing t with
  | nil => rfl
  | cons it rest ih =>
    show (applyItems (applyItem t it) rest).name = t.name
    rw [ih (applyItem t it), applyItem_name]

theorem renameStep_file (r : List String) (n : String) (m : Nat) (x : String) :
    renameStep r (.file n m) x = .file n m := by
  unfold renameStep
  split <;> rfl

theorem foldl_renameStep_file (xs : List String) (r : List String) (n : String) (m : Nat) :
    xs.foldl (renameStep r) (.file n m) = .file n m := by
  induction xs with
  | nil => rfl
  | cons x rest ih => simp only [List.foldl_cons, renameStep_file, ih]

theorem applyItem_file (n : String) (m : Nat) (it : WalkItem) :
    applyItem (.file n m) it = .file n m := by
  unfold applyItem
  rw [foldl_renameStep_file, foldl_renameStep_file]

theorem applyItems_file (n : String) (m : Nat) (its : List WalkItem) :
    applyItems (.file n m) its = .file n m := by
  induction its with
  | nil => rfl
  | cons it rest ih =>
    show List.foldl applyItem (applyItem (.file n m) it) rest = .file n m
    rw [applyItem_file]
    exact ih

theorem renameTops_eq_map (a b : String) (cs : List Entry) :
    renameTops a b cs = cs.map (fun e => if e.name = a then e.setName b else e) := by
  induction cs with
  | nil => rfl
  | cons e es ih => simp only [renameTops, List.map_cons, ih]

theorem renameAtList_eq_map (cs : List Entry) (c : String) (p : List String) (a b : String) :
    renameAtList cs c p a b =
      cs.map (fun e => if e.name = c then renameAt e p a b else e) := by
  induction cs with
  | nil => rfl
  | cons e es ih => simp only [renameAtList, List.map_cons, ih]

theorem applyItem_eq_foldl (t : Entry) (it : WalkItem) :
    applyItem t it = (it.fileNames ++ it.dirNames).foldl (renameStep it.root) t := by
  unfold applyItem
  rw [List.foldl_append]

/-- Renaming under a nonempty path inside a directory only rewrites the
children carrying the path's head, pointwise. -/
theorem renameStep_dir_cons (c : String) (p : List String) (n : String) (m : Nat)
    (cs : List Entry) (x : String) :
    renameStep (c :: p) (.dir n m cs) x =
      .dir n m (cs.map fun e => if e.name = c then renameStep p e x else e) := by
  by_cases hx : hasSpace x = true
  · simp only [renameStep, hx, if_true]
    show Entry.dir n m (renameAtList cs c p x (stripName x)) = _
    rw [renameAtList_eq_map]
  · simp only [Bool.not_eq_true] at hx
    simp only [renameStep]
    simp only [hx, Bool.false_eq_true, if_false]
    have : (fun e => if e.name = c then e else e) = fun (e : Entry) => e := by
      funext e; rw [ite_self]
    rw [this, List.map_id']

theorem foldl_renameStep_cons (xs : List String) (c : String) (p : List String)
    (n : String) (m : Nat) (cs : List Entry) :
    xs.foldl (renameStep (c :: p)) (.dir n m cs) =
      .dir n m (cs.map fun e => if e.name = c then xs.foldl (renameStep p) e else e) := by
  induction xs generalizing cs with
  | nil =>
    simp only [List.foldl_nil]
    have : (fun e => if e.name = c then e else e) = fun (e : Entry) => e := by
      funext e; rw [ite_self]
    rw [this, List.map_id']
  | cons x rest ih =>
    simp only [List.foldl_cons, renameStep_dir_cons, ih]
    congr 1
    rw [List.map_map]
    apply List.map_congr_left
    intro e _
    by_cases h : e.name = c
    · have hname : (renameStep p e x).name = e.name := renameStep_name p e x
      simp only [Function.comp_apply, h, if_true, hname]
    · simp only [Function.comp_apply, h, if_false]

/-- Lifting one walk triple with a nonempty root into a directory: only the
children named by the root's head are touched, each by the triple with the
root's tail. -/
theorem applyItem_lift (c : String) (p : List String) (ds fs : List String)
    (n : String) (m : Nat) (cs : List Entry) :
    applyItem (.dir n m cs) ⟨c :: p, ds, fs⟩ =
      .dir n m (cs.map fun e => if e.name = c then applyItem e ⟨p, ds, fs⟩ else e) := by
  rw [applyItem_eq_foldl]
  show (fs ++ ds).foldl (renameStep (c :: p)) (.dir n m cs) = _
  rw [foldl_renameStep_cons]
  congr 1
  apply List.map_congr_left
  intro e _
  rw [applyItem_eq_foldl]

/-- The walk triples relevant to the child named `h`: those whose root
starts with `h`, with that head removed. -/
def itemsFor (h : String) : List WalkItem → List WalkItem
  | [] => []
  | ⟨[], _, _⟩ :: rest => itemsFor h rest
  | ⟨c :: p, ds, fs⟩ :: rest =>
      if c = h then ⟨p, ds, fs⟩ :: itemsFor h rest
      else itemsFor h rest

theorem itemsFor_cons_nil (h : String) (it : WalkItem) (rest : List WalkItem)
    (hr : it.root = []) : itemsFor h (it :: rest) = itemsFor h rest := by
  obtain ⟨root, ds, fs⟩ := it
  have hr2 : root = [] := hr
  subst hr2
  rfl

theorem itemsFor_cons_cons (h : String) (it : WalkItem) (rest : List WalkItem)
    (c : String) (p : List String) (hr : it.root = c :: p) :
    itemsFor h (it :: rest) =
      if c = h then ⟨p, it.dirNames, it.fileNames⟩ :: itemsFor h rest
      else itemsFor h rest := by
  obtain ⟨root, ds, fs⟩ := it
  have hr2 : root = c :: p := hr
  subst hr2
  rfl

theorem itemsFor_append (h : String) (A B : List WalkItem) :
    itemsFor h (A ++ B) = itemsFor h A ++ itemsFor h B := by
  induction A with
  | nil => rfl
  | cons it rest ih =>
    rw [List.cons_append]
    cases hr : it.root with
    | nil => rw [itemsFor_cons_nil h it _ hr, itemsFor_cons_nil h it _ hr, ih]
    | cons c p =>
      rw [itemsFor_cons_cons h it _ c p hr, itemsFor_cons_cons h it _ c p hr, ih]
      by_cases hc : c = h
      · rw [if_pos hc, if_pos hc, List.cons_append]
      · rw [if_neg hc, if_neg hc]

theorem itemsFor_reverse (h : String) (L : List WalkItem) :
    itemsFor h L.reverse = (itemsFor h L).reverse := by
  induction L with
  | nil => rfl
  | cons it rest ih =>
    rw [List.reverse_cons, itemsFor_append, ih]
    cases hr : it.root with
    | nil =>
      rw [itemsFor_cons_nil h it rest hr, itemsFor_cons_nil h it [] hr]
      show (itemsFor h rest).reverse ++ ([] : List WalkItem) = (itemsFor h rest).reverse
      rw [List.append_nil]
    | cons c p =>
      rw [itemsFor_cons_cons h it rest c p hr, itemsFor_cons_cons h it [] c p hr]
      by_cases hc : c = h
      · rw [if_pos hc, if_pos hc, List.reverse_cons]
        rfl
      · rw [if_neg hc, if_neg hc]
        show (itemsFor h rest).reverse ++ ([] : List WalkItem) = (itemsFor h rest).reverse
        rw [List.append_nil]

/-- Prepend a path component to a walk triple's root. -/
def consRoot (x : String) (it : WalkItem) : WalkItem :=
  ⟨x :: it.root, it.dirNames, it.fileNames⟩

theorem itemsFor_map_consRoot (h x : String) (L : List WalkItem) :
    itemsFor h (L.map (consRoot x)) = if x = h then L else [] := by
  induction L with
  | nil =>
    by_cases hc : x = h
    · rw [if_pos hc]; rfl
    · rw [if_neg hc]; rfl
  | cons it rest ih =>
    rw [List.map_cons,
      itemsFor_cons_cons h (consRoot x it) _ x it.root rfl, ih]
    by_cases hc : x = h
    · rw [if_pos hc, if_pos hc, if_pos hc]
      rfl
    · rw [if_neg hc, if_neg hc, if_neg hc]

/-- Applying a list of walk triples with nonempty roots to a directory
rewrites each child independently, by the triples addressed to its name. -/
theorem applyItems_lift (its : List WalkItem) (hne : ∀ it ∈ its, it.root ≠ [])
    (n : String) (m : Nat) (cs : List Entry) :
    applyItems (.dir n m cs) its =
      .dir n m (cs.map fun e => applyItems e (itemsFor e.name its)) := by
  induction its generalizing cs with
  | nil =>
    show Entry.dir n m cs = _
    have : (fun e => applyItems e (itemsFor e.name [])) = fun (e : Entry) => e := by
      funext e; rfl
    rw [this, List.map_id']
  | cons it rest ih =>
    obtain ⟨root, ds, fs⟩ := it
    cases hr : root with
    | nil =>
      exact absurd hr (hne ⟨root, ds, fs⟩ (List.mem_cons_self _ _))
    | cons c p =>
      subst hr
      show applyItems (applyItem (.dir n m cs) ⟨c :: p, ds, fs⟩) rest = _
      rw [applyItem_lift]
      rw [ih (fun x hx => hne x (List.mem_cons_of_mem _ hx))]
      congr 1
      rw [List.map_map]
      apply List.map_congr_left
      intro e _
      by_cases h : e.name = c
      · have hname : (applyItem e ⟨p, ds, fs⟩).name = e.name := applyItem_name _ _
        simp only [Function.comp_apply, h, if_true, hname]
        show applyItems (applyItem e ⟨p, ds, fs⟩) (itemsFor c rest) = _
        have hit : itemsFor c (⟨c :: p, ds, fs⟩ :: rest) = ⟨p, ds, fs⟩ :: itemsFor c rest := by
          rw [itemsFor_cons_cons c ⟨c :: p, ds, fs⟩ rest c p rfl, if_pos rfl]
        rw [hit]
        rfl
      · simp only [Function.comp_apply, h, if_false]
        have heq : itemsFor e.name (⟨c :: p, ds, fs⟩ :: rest) = itemsFor e.name rest := by
          show (if c = e.name then (⟨p, ds, fs⟩ : WalkItem) :: itemsFor e.name rest
                else itemsFor e.name rest) = itemsFor e.name rest
          rw [if_neg (fun hc => h hc.symm)]
        rw [heq]

mutual

theorem walkFrom_cons (x : String) (pr : List String) (e : Entry) :
    walkFrom (x :: pr) e = (walkFrom pr e).map (consRoot x) := by
  cases e with
  | file n m => rfl
  | dir n m cs =>
    show (⟨x :: pr, dirNamesOf cs, fileNamesOf cs⟩ : WalkItem) :: walkFromList (x :: pr) cs =
      ((⟨pr, dirNamesOf cs, fileNamesOf cs⟩ : WalkItem) :: walkFromList pr cs).map (consRoot x)
    rw [List.map_cons, walkFromList_cons x pr cs]
    rfl

theorem walkFromList_cons (x : String) (pr : List String) (cs : List Entry) :
    walkFromList (x :: pr) cs = (walkFromList pr cs).map (consRoot x) := by
  cases cs with
  | nil => rfl
  | cons e es =>
    show walkFrom ((x :: pr) ++ [e.name]) e ++ walkFromList (x :: pr) es = _
    rw [List.cons_append, walkFrom_cons x (pr ++ [e.name]) e, walkFromList_cons x pr es]
    show _ = (walkFrom (pr ++ [e.name]) e ++ walkFromList pr es).map (consRoot x)
    rw [List.map_append]

end

theorem walkFromList_root_ne_nil (cs : List Entry) (it : WalkItem)
    (hmem : it ∈ walkFromList [] cs) : it.root ≠ [] := by
  induction cs with
  | nil => cases hmem
  | cons e es ih =>
    have h2 : it ∈ walkFrom [e.name] e ++ walkFromList [] es := hmem
    rcases List.mem_append.mp h2 with h | h
    · rw [walkFrom_cons e.name [] e] at h
      rcases List.mem_map.mp h with ⟨it0, _, rfl⟩
      simp [consRoot]
    · exact ih h

theorem dirName_mem (cs : List Entry) (n : String) (m : Nat) (cs0 : List Entry)
    (hmem : Entry.dir n m cs0 ∈ cs) : n ∈ dirNamesOf cs := by
  induction cs with
  | nil => cases hmem
  | cons e es ih =>
    rcases List.mem_cons.mp hmem with rfl | hm
    · show n ∈ n :: dirNamesOf es
      exact List.mem_cons_self n _
    · cases e with
      | file n1 m1 => exact ih hm
      | dir n1 m1 cs1 =>
        show n ∈ n1 :: dirNamesOf es
        exact List.mem_cons_of_mem n1 (ih hm)

theorem itemsFor_walkFromList_nil (h : String) (cs : List Entry)
    (hnot : h ∉ dirNamesOf cs) : itemsFor h (walkFromList [] cs) = [] := by
  induction cs with
  | nil => rfl
  | cons e es ih =>
    have hsplit : itemsFor h (walkFromList [] (e :: es)) =
        itemsFor h (walkFrom [e.name] e) ++ itemsFor h (walkFromList [] es) := by
      show itemsFor h (walkFrom [e.name] e ++ walkFromList [] es) = _
      exact itemsFor_append h _ _
    rw [hsplit, walkFrom_cons e.name [] e, itemsFor_map_consRoot]
    cases e with
    | file n1 m1 =>
      have hwf : walkFrom [] (Entry.file n1 m1) = [] := rfl
      rw [hwf, ite_self, List.nil_append]
      exact ih hnot
    | dir n1 m1 cs1 =>
      have hne : ¬((Entry.dir n1 m1 cs1).name = h) := by
        intro he
        exact hnot (by rw [← he]; exact dirName_mem _ n1 m1 cs1 (List.mem_cons_self _ _))
      rw [if_neg hne, List.nil_append]
      exact ih (fun hx => hnot (by
        show h ∈ n1 :: dirNamesOf es
        exact List.mem_cons_of_mem n1 hx))

/-- With distinct directory names among the children, the walk triples
addressed to the directory child named `n0` are exactly that child's own
subwalk. -/
theorem itemsFor_walkFromList (cs : List Entry) (n0 : String) (m0 : Nat) (cs0 : List Entry)
    (hmem : Entry.dir n0 m0 cs0 ∈ cs) (hnd : (dirNamesOf cs).Nodup) :
    itemsFor n0 (walkFromList [] cs) = walkFrom [] (.dir n0 m0 cs0) := by
  induction cs with
  | nil => cases hmem
  | cons e es ih =>
    have hsplit : itemsFor n0 (walkFromList [] (e :: es)) =
        itemsFor n0 (walkFrom [e.name] e) ++ itemsFor n0 (walkFromList [] es) := by
      show itemsFor n0 (walkFrom [e.name] e ++ walkFromList [] es) = _
      exact itemsFor_append n0 _ _
    rw [hsplit, walkFrom_cons e.name [] e, itemsFor_map_consRoot]
    rcases List.mem_cons.mp hmem with rfl | hm
    · have hname : (Entry.dir n0 m0 cs0).name = n0 := rfl
      rw [hname, if_pos rfl]
      have hnotes : n0 ∉ dirNamesOf es := by
        have : (n0 :: dirNamesOf es).Nodup := hnd
        exact (List.nodup_cons.mp this).1
      rw [itemsFor_walkFromList_nil n0 es hnotes, List.append_nil]
    · have hn0 : n0 ∈ dirNamesOf es := dirName_mem _ n0 m0 cs0 hm
      cases e with
      | file n1 m1 =>
        have hwf : walkFrom [] (Entry.file n1 m1) = [] := rfl
        rw [hwf, ite_self, List.nil_append]
        exact ih hm hnd
      | dir n1 m1 cs1 =>
        have hnd2 : (n1 :: dirNamesOf es).Nodup := hnd
        have hne : ¬((Entry.dir n1 m1 cs1).name = n0) := by
          intro he
          have he2 : n1 = n0 := he
          exact (List.nodup_cons.mp hnd2).1 (by rw [he2]; exact hn0)
        rw [if_neg hne, List.nil_append]
        exact ih hm (List.nodup_cons.mp hnd2).2

/-! ### The per-directory rename pass (root path `[]`) -/

theorem space_not_mem_expandSpaces (l : List Char) : ' ' ∉ expandSpaces l := by
  induction l with
  | nil => simp [expandSpaces]
  | cons c rest ih =>
    intro hmem
    rcases List.mem_append.mp hmem with h | h
    · by_cases hc : c = ' '
      · rw [if_pos hc] at h
        rcases List.mem_cons.mp h with he | he
        · cases he
        · rcases List.mem_cons.mp he with he2 | he2
          · cases he2
          · cases he2
      · rw [if_neg hc] at h
        rcases List.mem_cons.mp h with he | he
        · exact hc he.symm
        · cases he
    · exact ih h

theorem hasSpace_stripName (s : String) : hasSpace (stripName s) = false := by
  unfold hasSpace stripName
  have : ' ' ∉ expandSpaces s.data := space_not_mem_expandSpaces s.data
  cases hc : (List.contains (String.data ⟨expandSpaces s.data⟩) ' ') with
  | false => rfl
  | true =>
    exact absurd (by simpa using hc : ' ' ∈ expandSpaces s.data) this

/-- `stripGuardName n` never contains a space. -/
theorem hasSpace_stripGuardName (n : String) : hasSpace (stripGuardName n) = false := by
  unfold stripGuardName
  by_cases h : hasSpace n = true
  · rw [if_pos h]
    exact hasSpace_stripName n
  · rw [if_neg h]
    exact Bool.not_eq_true _ |>.mp h

/-- Rename one entry's own name if it contains a space: the effect of the
guarded `os.rename` on that entry. -/
def stripTop (e : Entry) : Entry :=
  if hasSpace e.name = true then e.setName (stripName e.name) else e

/-- Fold the guarded top-level renames of a recorded name list over a child
list. -/
def foldlTops (ns : List String) (X : List Entry) : List Entry :=
  ns.foldl (fun l x => if hasSpace x = true then renameTops x (stripName x) l else l) X

theorem renameStep_dir_nil (n : String) (m : Nat) (X : List Entry) (x : String) :
    renameStep [] (.dir n m X) x =
      .dir n m (if hasSpace x = true then renameTops x (stripName x) X else X) := by
  unfold renameStep
  by_cases h : hasSpace x = true
  · rw [if_pos h, if_pos h]
    rfl
  · rw [if_neg h, if_neg h]

theorem foldl_renameStep_nil_dir (ns : List String) (n : String) (m : Nat) (X : List Entry) :
    ns.foldl (renameStep []) (.dir n m X) = .dir n m (foldlTops ns X) := by
  induction ns generalizing X with
  | nil => rfl
  | cons x rest ih =>
    simp only [List.foldl_cons, renameStep_dir_nil]
    rw [ih]
    rfl

theorem stripTop_no_space (e : Entry) (h : hasSpace e.name = false) : stripTop e = e := by
  unfold stripTop
  rw [h]
  rfl

/-- Folding the guarded renames of the recorded names over a child list
whose spaced names are all recorded renames every spaced name, exactly
once: the result is the pointwise `stripTop`. -/
theorem foldlTops_eq_map (ns : List String) (X : List Entry)
    (hcov : ∀ e ∈ X, hasSpace e.name = true → e.name ∈ ns) :
    foldlTops ns X = X.map stripTop := by
  induction ns generalizing X with
  | nil =>
    show X = X.map stripTop
    have : ∀ e ∈ X, stripTop e = e := by
      intro e he
      apply stripTop_no_space
      cases hc : hasSpace e.name with
      | false => rfl
      | true => cases hcov e he hc
    rw [List.map_congr_left this, List.map_id']
  | cons x ns ih =>
    show foldlTops ns (if hasSpace x = true then renameTops x (stripName x) X else X) =
      X.map stripTop
    by_cases hx : hasSpace x = true
    · rw [if_pos hx, renameTops_eq_map]
      rw [ih]
      · rw [List.map_map]
        apply List.map_congr_left
        intro e _
        by_cases he : e.name = x
        · have h1 : stripTop (e.setName (stripName x)) = e.setName (stripName x) := by
            apply stripTop_no_space
            rw [setName_name]
            exact hasSpace_stripName x
          simp only [Function.comp_apply, he, if_true, h1]
          unfold stripTop
          rw [he, hx, if_pos rfl]
        · simp only [Function.comp_apply, he, if_false]
      · intro e hemem hsp
        rcases List.mem_map.mp hemem with ⟨e0, he0, rfl⟩
        by_cases he : e0.name = x
        · rw [if_pos he] at hsp ⊢
          rw [setName_name] at hsp
          rw [hasSpace_stripName x] at hsp
          cases hsp
        · rw [if_neg he] at hsp ⊢
          have := hcov e0 he0 hsp
          rcases List.mem_cons.mp this with h1 | h1
          · exact absurd h1 he
          · exact h1
    · rw [if_neg hx]
      apply ih
      intro e he hsp
      have := hcov e he hsp
      rcases List.mem_cons.mp this with h1 | h1
      · rw [h1] at hsp
        rw [hsp] at hx
        exact absurd rfl hx
      · exact h1

/-! ### Well-formed trees and the traversal/specification equivalence -/

/-- No duplicates in a list of names. -/
def nodupB (l : List String) : Bool := decide l.Nodup

mutual

/-- Well-formedness of a destination tree as a filesystem: sibling
directory names are distinct at every level (a real directory cannot hold
two subdirectories of the same name). -/
def wfd : Entry → Bool
  | .file _ _ => true
  | .dir _ _ cs => nodupB (dirNamesOf cs) && wfdList cs

/-- `wfd` for every entry of a child list. -/
def wfdList : List Entry → Bool
  | [] => true
  | e :: es => wfd e && wfdList es

end

theorem wfdList_mem (cs : List Entry) (e : Entry) (hmem : e ∈ cs)
    (h : wfdList cs = true) : wfd e = true := by
  induction cs with
  | nil => cases hmem
  | cons c cs2 ih =>
    have h2 : wfd c = true ∧ wfdList cs2 = true := by
      have : (wfd c && wfdList cs2) = true := h
      exact Bool.and_eq_true_iff.mp this
    rcases List.mem_cons.mp hmem with rfl | hm
    · exact h2.1
    · exact ih hm h2.2

theorem name_mem_namesOf (cs : List Entry) (e : Entry) (hmem : e ∈ cs) :
    e.name ∈ fileNamesOf cs ++ dirNamesOf cs := by
  induction cs with
  | nil => cases hmem
  | cons c cs2 ih =>
    rcases List.mem_cons.mp hmem with rfl | hm
    · cases e with
      | file n m =>
        show n ∈ (n :: fileNamesOf cs2) ++ dirNamesOf (Entry.file n m :: cs2)
        exact List.mem_append_left _ (List.mem_cons_self n _)
      | dir n m cs0 =>
        show n ∈ fileNamesOf (Entry.dir n m cs0 :: cs2) ++ (n :: dirNamesOf cs2)
        exact List.mem_append_right _ (List.mem_cons_self n _)
    · have hin := ih hm
      rcases List.mem_append.mp hin with h1 | h1
      · cases c with
        | file n1 m1 =>
          show e.name ∈ (n1 :: fileNamesOf cs2) ++ dirNamesOf (Entry.file n1 m1 :: cs2)
          exact List.mem_append_left _ (List.mem_cons_of_mem n1 h1)
        | dir n1 m1 cs1 =>
          show e.name ∈ fileNamesOf cs2 ++ (n1 :: dirNamesOf cs2)
          exact List.mem_append_left _ h1
      · cases c with
        | file n1 m1 =>
          show e.name ∈ (n1 :: fileNamesOf cs2) ++ dirNamesOf cs2
          exact List.mem_append_right _ h1
        | dir n1 m1 cs1 =>
          show e.name ∈ fileNamesOf cs2 ++ (n1 :: dirNamesOf cs2)
          exact List.mem_append_right _ (List.mem_cons_of_mem n1 h1)

theorem stripAllList_eq_map (cs : List Entry) : stripAllList cs = cs.map stripAll := by
  induction cs with
  | nil => rfl
  | cons e es ih =>
    show stripAll e :: stripAllList es = stripAll e :: es.map stripAll
    rw [ih]

theorem stripBelow_name (e : Entry) : (stripBelow e).name = e.name := by
  cases e <;> rfl

theorem stripTop_stripBelow (e : Entry) : stripTop (stripBelow e) = stripAll e := by
  cases e with
  | file n m =>
    show stripTop (.file n m) = .file (stripGuardName n) m
    unfold stripTop stripGuardName
    by_cases h : hasSpace (Entry.name (.file n m)) = true
    · rw [if_pos h]
      have h2 : hasSpace n = true := h
      rw [if_pos h2]
      rfl
    · rw [if_neg h]
      have h2 : ¬(hasSpace n = true) := h
      rw [if_neg h2]
  | dir n m cs =>
    show stripTop (.dir n m (stripAllList cs)) = .dir (stripGuardName n) m (stripAllList cs)
    unfold stripTop stripGuardName
    by_cases h : hasSpace (Entry.name (.dir n m (stripAllList cs))) = true
    · rw [if_pos h]
      have h2 : hasSpace n = true := h
      rw [if_pos h2]
      rfl
    · rw [if_neg h]
      have h2 : ¬(hasSpace n = true) := h
      rw [if_neg h2]

mutual

/-- The operational bottom-up traversal of `replace_spaces_in_names`
computes the structural rename `stripBelow` on any well-formed tree. -/
theorem runWalk (e : Entry) (h : wfd e = true) :
    applyItems e ((walkFrom [] e).reverse) = stripBelow e := by
  cases e with
  | file n m => exact applyItems_file n m _
  | dir n m cs =>
    have hc : nodupB (dirNamesOf cs) = true ∧ wfdList cs = true := by
      have : (nodupB (dirNamesOf cs) && wfdList cs) = true := h
      exact Bool.and_eq_true_iff.mp this
    have hnd : (dirNamesOf cs).Nodup := of_decide_eq_true hc.1
    show applyItems (.dir n m cs)
      ((⟨[], dirNamesOf cs, fileNamesOf cs⟩ :: walkFromList [] cs).reverse) = _
    rw [List.reverse_cons]
    show List.foldl applyItem (.dir n m cs)
      ((walkFromList [] cs).reverse ++ [⟨[], dirNamesOf cs, fileNamesOf cs⟩]) = _
    rw [List.foldl_append]
    have hne : ∀ it ∈ (walkFromList [] cs).reverse, it.root ≠ [] := by
      intro it hit
      exact walkFromList_root_ne_nil cs it (List.mem_reverse.mp hit)
    have hA : List.foldl applyItem (.dir n m cs) ((walkFromList [] cs).reverse) =
        .dir n m (cs.map stripBelow) := by
      rw [show List.foldl applyItem (.dir n m cs) ((walkFromList [] cs).reverse) =
          applyItems (.dir n m cs) ((walkFromList [] cs).reverse) from rfl]
      rw [applyItems_lift _ hne n m cs]
      congr 1
      apply List.map_congr_left
      intro e he
      cases e with
      | file n1 m1 => exact applyItems_file n1 m1 _
      | dir n1 m1 cs1 =>
        have hname : (Entry.dir n1 m1 cs1).name = n1 := rfl
        rw [hname, itemsFor_reverse, itemsFor_walkFromList cs n1 m1 cs1 he hnd]
        exact runWalkList cs (.dir n1 m1 cs1) he hc.2
    rw [hA]
    show applyItem (.dir n m (cs.map stripBelow)) ⟨[], dirNamesOf cs, fileNamesOf cs⟩ = _
    rw [applyItem_eq_foldl]
    show (fileNamesOf cs ++ dirNamesOf cs).foldl (renameStep [])
      (.dir n m (cs.map stripBelow)) = _
    rw [foldl_renameStep_nil_dir]
    have hcov : ∀ e ∈ cs.map stripBelow, hasSpace e.name = true →
        e.name ∈ fileNamesOf cs ++ dirNamesOf cs := by
      intro e hemem _
      rcases List.mem_map.mp hemem with ⟨e0, he0, rfl⟩
      rw [stripBelow_name]
      exact name_mem_namesOf cs e0 he0
    rw [foldlTops_eq_map _ _ hcov, List.map_map]
    show Entry.dir n m (cs.map (stripTop ∘ stripBelow)) = .dir n m (stripAllList cs)
    rw [stripAllList_eq_map]
    congr 1
    apply List.map_congr_left
    intro e _
    exact stripTop_stripBelow e

/-- `runWalk` for every member of a child list. -/
theorem runWalkList (cs : List Entry) (e : Entry) (hmem : e ∈ cs)
    (h : wfdList cs = true) :
    applyItems e ((walkFrom [] e).reverse) = stripBelow e := by
  cases cs with
  | nil => cases hmem
  | cons c cs2 =>
    have h2 : wfd c = true ∧ wfdList cs2 = true := by
      have : (wfd c && wfdList cs2) = true := h
      exact Bool.and_eq_true_iff.mp this
    rcases List.mem_cons.mp hmem with rfl | hm
    · exact runWalk e h2.1
    · exact runWalkList cs2 e hm h2.2

end

/-- On a well-formed tree, `replace_spaces_in_names` is the structural
bottom-up rename of everything below the walked path. -/
theorem replace_spaces_eq_stripBelow (e : Entry) (h : wfd e = true) :
    replace_spaces_in_names e = stripBelow e := runWalk e h

/-! ### Idempotence and absence of spaces (C7, C8) -/

mutual

/-- No name in the entry (its own included) contains a space. -/
def noSpaceIn : Entry → Bool
  | .file n _ => !(hasSpace n)
  | .dir n _ cs => !(hasSpace n) && noSpaceInList cs

/-- `noSpaceIn` for every entry of a child list. -/
def noSpaceInList : List Entry → Bool
  | [] => true
  | e :: es => noSpaceIn e && noSpaceInList es

end

/-- No name strictly below the entry contains a space. -/
def noSpaceBelow : Entry → Bool
  | .file _ _ => true
  | .dir _ _ cs => noSpaceInList cs

mutual

/-- Collision-freedom of the rename: at every level, the space-normalized
sibling directory names are distinct.  On a real filesystem a collision
would make `os.rename` overwrite or fail, so this is the domain on which
the rename is well defined. -/
def wfds : Entry → Bool
  | .file _ _ => true
  | .dir _ _ cs => nodupB ((dirNamesOf cs).map stripGuardName) && wfdsList cs

/-- `wfds` for every entry of a child list. -/
def wfdsList : List Entry → Bool
  | [] => true
  | e :: es => wfds e && wfdsList es

end

theorem nodupB_of_map (f : String → String) (l : List String)
    (h : nodupB (l.map f) = true) : nodupB l = true := by
  unfold nodupB at h ⊢
  exact decide_eq_true (List.Nodup.of_map f (of_decide_eq_true h))

theorem dirNamesOf_stripAllList (cs : List Entry) :
    dirNamesOf (stripAllList cs) = (dirNamesOf cs).map stripGuardName := by
  induction cs with
  | nil => rfl
  | cons e es ih =>
    cases e with
    | file n m =>
      show dirNamesOf (stripAllList es) = (dirNamesOf es).map stripGuardName
      exact ih
    | dir n m cs0 =>
      show stripGuardName n :: dirNamesOf (stripAllList es) =
        stripGuardName n :: (dirNamesOf es).map stripGuardName
      rw [ih]

theorem stripGuardName_idem (n : String) :
    stripGuardName (stripGuardName n) = stripGuardName n := by
  conv_lhs => rw [stripGuardName]
  rw [hasSpace_stripGuardName]
  rfl

mutual

theorem stripAll_idem (e : Entry) : stripAll (stripAll e) = stripAll e := by
  cases e with
  | file n m =>
    show Entry.file (stripGuardName (stripGuardName n)) m = .file (stripGuardName n) m
    rw [stripGuardName_idem]
  | dir n m cs =>
    show Entry.dir (stripGuardName (stripGuardName n)) m (stripAllList (stripAllList cs)) =
      .dir (stripGuardName n) m (stripAllList cs)
    rw [stripGuardName_idem, stripAllList_idem cs]

theorem stripAllList_idem (cs : List Entry) :
    stripAllList (stripAllList cs) = stripAllList cs := by
  cases cs with
  | nil => rfl
  | cons e es =>
    show stripAll (stripAll e) :: stripAllList (stripAllList es) =
      stripAll e :: stripAllList es
    rw [stripAll_idem e, stripAllList_idem es]

end

theorem stripBelow_stripBelow (e : Entry) :
    stripBelow (stripBelow e) = stripBelow e := by
  cases e with
  | file n m => rfl
  | dir n m cs =>
    show Entry.dir n m (stripAllList (stripAllList cs)) = .dir n m (stripAllList cs)
    rw [stripAllList_idem]

mutual

theorem wfds_wfd (e : Entry) (h : wfds e = true) : wfd e = true := by
  cases e with
  | file n m => rfl
  | dir n m cs =>
    have h2 : nodupB ((dirNamesOf cs).map stripGuardName) = true ∧ wfdsList cs = true := by
      have : (nodupB ((dirNamesOf cs).map stripGuardName) && wfdsList cs) = true := h
      exact Bool.and_eq_true_iff.mp this
    show (nodupB (dirNamesOf cs) && wfdList cs) = true
    rw [nodupB_of_map _ _ h2.1, wfdsList_wfdList cs h2.2]
    rfl

theorem wfdsList_wfdList (cs : List Entry) (h : wfdsList cs = true) :
    wfdList cs = true := by
  cases cs with
  | nil => rfl
  | cons e es =>
    have h2 : wfds e = true ∧ wfdsList es = true := by
      have : (wfds e && wfdsList es) = true := h
      exact Bool.and_eq_true_iff.mp this
    show (wfd e && wfdList es) = true
    rw [wfds_wfd e h2.1, wfdsList_wfdList es h2.2]
    rfl

end

mutual

theorem wfd_stripAll (e : Entry) (h : wfds e = true) : wfd (stripAll e) = true := by
  cases e with
  | file n m => rfl
  | dir n m cs =>
    have h2 : nodupB ((dirNamesOf cs).map stripGuardName) = true ∧ wfdsList cs = true := by
      have : (nodupB ((dirNamesOf cs).map stripGuardName) && wfdsList cs) = true := h
      exact Bool.and_eq_true_iff.mp this
    show (nodupB (dirNamesOf (stripAllList cs)) && wfdList (stripAllList cs)) = true
    rw [dirNamesOf_stripAllList, h2.1, wfdList_stripAllList cs h2.2]
    rfl

theorem wfdList_stripAllList (cs : List Entry) (h : wfdsList cs = true) :
    wfdList (stripAllList cs) = true := by
  cases cs with
  | nil => rfl
  | cons e es =>
    have h2 : wfds e = true ∧ wfdsList es = true := by
      have : (wfds e && wfdsList es) = true := h
      exact Bool.and_eq_true_iff.mp this
    show (wfd (stripAll e) && wfdList (stripAllList es)) = true
    rw [wfd_stripAll e h2.1, wfdList_stripAllList es h2.2]
    rfl

end

theorem wfd_stripBelow (e : Entry) (h : wfds e = true) : wfd (stripBelow e) = true := by
  cases e with
  | file n m => rfl
  | dir n m cs =>
    have h2 : nodupB ((dirNamesOf cs).map stripGuardName) = true ∧ wfdsList cs = true := by
      have : (nodupB ((dirNamesOf cs).map stripGuardName) && wfdsList cs) = true := h
      exact Bool.and_eq_true_iff.mp this
    show (nodupB (dirNamesOf (stripAllList cs)) && wfdList (stripAllList cs)) = true
    rw [dirNamesOf_stripAllList, h2.1, wfdList_stripAllList cs h2.2]
    rfl

mutual

theorem noSpaceIn_stripAll (e : Entry) : noSpaceIn (stripAll e) = true := by
  cases e with
  | file n m =>
    show (!(hasSpace (stripGuardName n))) = true
    rw [hasSpace_stripGuardName]
    rfl
  | dir n m cs =>
    show (!(hasSpace (stripGuardName n)) && noSpaceInList (stripAllList cs)) = true
    rw [hasSpace_stripGuardName, noSpaceInList_stripAllList cs]
    rfl

theorem noSpaceInList_stripAllList (cs : List Entry) :
    noSpaceInList (stripAllList cs) = true := by
  cases cs with
  | nil => rfl
  | cons e es =>
    show (noSpaceIn (stripAll e) && noSpaceInList (stripAllList es)) = true
    rw [noSpaceIn_stripAll e, noSpaceInList_stripAllList es]
    rfl

end

theorem noSpaceBelow_stripBelow (e : Entry) : noSpaceBelow (stripBelow e) = true := by
  cases e with
  | file n m => rfl
  | dir n m cs => exact noSpaceInList_stripAllList cs

/-- **C7**: on every tree whose space-normalized sibling directory names do
not collide (the domain where the renames are well defined on a real
filesystem), `replace_spaces_in_names` is idempotent — running it twice
yields the same tree as running it once — and after one run no file or
directory name below the walked path contains a space. -/
theorem replace_spaces_in_names_idempotent (e : Entry) (h : wfds e = true) :
    replace_spaces_in_names (replace_spaces_in_names e) = replace_spaces_in_names e ∧
    noSpaceBelow (replace_spaces_in_names e) = true := by
  have hw : wfd e = true := wfds_wfd e h
  rw [replace_spaces_eq_stripBelow e hw]
  have hw2 : wfd (stripBelow e) = true := wfd_stripBelow e h
  rw [replace_spaces_eq_stripBelow _ hw2]
  exact ⟨stripBelow_stripBelow e, noSpaceBelow_stripBelow e⟩

/-- Witness for C7 on a concrete tree holding spaced names at two levels. -/
theorem replace_spaces_in_names_idempotent_witness :
    replace_spaces_in_names (replace_spaces_in_names
      (.dir "cat" 0 [.dir "a b" 7 [.file "c d.nc" 5], .file "x y.nc" 1])) =
      replace_spaces_in_names
        (.dir "cat" 0 [.dir "a b" 7 [.file "c d.nc" 5], .file "x y.nc" 1]) ∧
    noSpaceBelow (replace_spaces_in_names
      (.dir "cat" 0 [.dir "a b" 7 [.file "c d.nc" 5], .file "x y.nc" 1])) = true :=
  replace_spaces_in_names_idempotent
    (.dir "cat" 0 [.dir "a b" 7 [.file "c d.nc" 5], .file "x y.nc" 1]) (by rfl)

/-- **C8**: the traversal is deepest-first, so on the tree holding the
directory `"a b"` which holds the file `"c d.nc"`, normalization renames
the file before its parent directory and the result holds the file at
`a__b/c__d.nc` — every space replaced by a double underscore and the child
not orphaned by its parent's rename. -/
theorem replace_spaces_bottom_up :
    replace_spaces_in_names (.dir "cat" 0 [.dir "a b" 7 [.file "c d.nc" 5]]) =
      .dir "cat" 0 [.dir "a__b" 7 [.file "c__d.nc" 5]] ∧
    existsAtPath
      (replace_spaces_in_names (.dir "cat" 0 [.dir "a b" 7 [.file "c d.nc" 5]]))
      ["a__b", "c__d.nc"] = true :=
  ⟨rfl, rfl⟩

/-! ## The single-item publisher (`publish_resource`, lines 117-158)

`publish_resource` resolves the source collection's latest timestamp, runs
`iget -rf` as a subprocess, raises `NetCDFPublicationError` on a non-zero
exit, and otherwise normalizes permissions, then names, and stamps the
destination's access and modification times.  The subprocess outcome
(return code, captured stdout/stderr) and the tree that the copy deposits
at the destination enter as explicit parameters; the destination entry's
state before the call is `prior`, so the model can express which state
each failure leaves behind. -/

mutual

/-- `rchmod(path, mode)` (lines 34-51): set `mode` on the path and every
descendant directory and file. -/
def rchmod (mode : Nat) : Entry → Entry
  | .file n _ => .file n mode
  | .dir n _ cs => .dir n mode (rchmodList mode cs)

/-- `rchmod` over a child list. -/
def rchmodList (mode : Nat) : List Entry → List Entry
  | [] => []
  | e :: es => rchmod mode e :: rchmodList mode es

end

/-- `NetCDFPublicationError` as raised at lines 149-152: message, the
subprocess return code, and the captured stdout and stderr. -/
structure NetCDFPublicationError where
  message : String
  returncode : Int
  stdout : String
  stderr : String
deriving Repr, DecidableEq

/-- A failure escaping `publish_resource`: the `ValueError` out of `max`
during timestamp resolution, or the `NetCDFPublicationError` raised on a
non-zero `iget` exit. -/
inductive PublishFailure where
  | valueError (message : String)
  | publicationError (e : NetCDFPublicationError)
deriving Repr, DecidableEq

/-- The state of the destination entry `catalog_path/resource_id`:
its content tree and its access and modification times. -/
structure DestEntryState where
  tree : Entry
  atime : Timestamp
  mtime : Timestamp
deriving Repr

/-- `os.path.join(a, b)` for the absolute-prefix-free names used here. -/
def pathJoin (a b : String) : String := a ++ "/" ++ b

/-- `publish_resource(irods_env, proxy_path, catalog_path, resource_id)`.

* `sourceColl` is the iRODS collection at `proxy_path/resource_id`;
* `returncode`, `stdout`, `stderr` are the outcome of the `iget -rf`
  subprocess (an oracle — the transfer itself is an external tool);
* `prior` is the destination entry's state before the call;
* `afterIget` is its state right after the copy ran (`iget -f` can leave a
  partial tree on failure, so this is an oracle too).

Returns the destination entry's state after the call together with the
failure raised, if any. -/
def publish_resource (sourceColl : RemoteNode) (returncode : Int)
    (stdout stderr : String) (proxy_path catalog_path resource_id : String)
    (prior afterIget : DestEntryState) :
    DestEntryState × Option PublishFailure :=
  match get_latest_resource_timestamp sourceColl with
  | .error msg => (prior, some (.valueError msg))
  | .ok timestamp =>
      if returncode ≠ 0 then
        (afterIget, some (.publicationError
          ⟨"iget " ++ pathJoin proxy_path resource_id ++ " to " ++
            pathJoin catalog_path resource_id ++ " failed",
           returncode, stdout, stderr⟩))
      else
        ({ tree := replace_spaces_in_names (rchmod FILE_MODE afterIget.tree),
           atime := timestamp, mtime := timestamp }, none)

/-- **C4**: provided the source collection holds at least one data object
(so that timestamp resolution succeeds — `scan_source` only ever publishes
such collections), `publish_resource` raises `NetCDFPublicationError` if
and only if the bulk copy exits non-zero; the raised error carries the
exit code and the captured stdout and stderr, and on that failure the
destination entry is exactly what the copy left — no permission
normalization, no name normalization, no timestamp stamping; on success
the destination tree is the copied tree with permissions normalized and
then names normalized, and both its access and modification times equal
the resolved source timestamp. -/
theorem publish_resource_spec (sourceColl : RemoteNode) (returncode : Int)
    (stdout stderr : String) (proxy_path catalog_path resource_id : String)
    (prior afterIget : DestEntryState)
    (hsome : walkObjects sourceColl ≠ []) :
    ((publish_resource sourceColl returncode stdout stderr proxy_path catalog_path
        resource_id prior afterIget).2.isSome ↔ returncode ≠ 0) ∧
    (returncode ≠ 0 →
      publish_resource sourceColl returncode stdout stderr proxy_path catalog_path
        resource_id prior afterIget =
      (afterIget, some (.publicationError
        ⟨"iget " ++ pathJoin proxy_path resource_id ++ " to " ++
          pathJoin catalog_path resource_id ++ " failed",
         returncode, stdout, stderr⟩))) ∧
    (returncode = 0 → ∃ timestamp,
      get_latest_resource_timestamp sourceColl = .ok timestamp ∧
      publish_resource sourceColl returncode stdout stderr proxy_path catalog_path
        resource_id prior afterIget =
      ({ tree := replace_spaces_in_names (rchmod FILE_MODE afterIget.tree),
         atime := timestamp, mtime := timestamp }, none)) := by
  have hok : ∃ t, get_latest_resource_timestamp sourceColl = .ok t := by
    unfold get_latest_resource_timestamp
    cases hw : (walkObjects sourceColl).map Prod.snd with
    | nil => exact absurd (List.map_eq_nil_iff.mp hw) hsome
    | cons t rest => exact ⟨rest.foldl max t, rfl⟩
  obtain ⟨t, ht⟩ := hok
  have hred : publish_resource sourceColl returncode stdout stderr proxy_path
      catalog_path resource_id prior afterIget =
      if returncode ≠ 0 then
        (afterIget, some (.publicationError
          ⟨"iget " ++ pathJoin proxy_path resource_id ++ " to " ++
            pathJoin catalog_path resource_id ++ " failed",
           returncode, stdout, stderr⟩))
      else
        ({ tree := replace_spaces_in_names (rchmod FILE_MODE afterIget.tree),
           atime := t, mtime := t }, none) := by
    unfold publish_resource
    rw [ht]
  rw [hred]
  by_cases hrc : returncode ≠ 0
  · rw [if_pos hrc]
    refine ⟨⟨fun _ => hrc, fun _ => rfl⟩, fun _ => rfl, fun h0 => absurd h0 hrc⟩
  · rw [if_neg hrc]
    refine ⟨⟨fun hs => ?_, fun h => absurd h hrc⟩, fun h => absurd h hrc,
      fun _ => ⟨t, ht, rfl⟩⟩
    cases hs

/-- Witness for C4: a one-object collection, so the hypothesis holds, and
with exit code 0 the call raises nothing. -/
theorem publish_resource_spec_witness :
    walkObjects (RemoteNode.coll "r" [.dataObject "a.nc" 9]) ≠ [] ∧
    ((publish_resource (.coll "r" [.dataObject "a.nc" 9]) 0 "" "" "p" "c" "rid"
        ⟨.dir "rid" 0 [], 0, 0⟩ ⟨.dir "rid" 0 [.file "a.nc" 0], 4, 4⟩).2.isSome ↔
      (0 : Int) ≠ 0) :=
  ⟨by decide,
   (publish_resource_spec (.coll "r" [.dataObject "a.nc" 9]) 0 "" "" "p" "c" "rid"
     ⟨.dir "rid" 0 [], 0, 0⟩ ⟨.dir "rid" 0 [.file "a.nc" 0], 4, 4⟩ (by decide)).1⟩

/-! ## Source scanning (`scan_source`, lines 161-201) -/

/-- A subcollection directly under the iRODS proxy path: its name, its
metadata key-value pairs (reading `metadata[k]` takes the first entry with
key `k`), and its contents. -/
structure ProxySubcollection where
  name : String
  metadata : List (String × String)
  contents : List RemoteNode

/-- The subcollection as a collection tree. -/
def ProxySubcollection.node (s : ProxySubcollection) : RemoteNode :=
  .coll s.name s.contents

/-- Line 178: `subcollection.name not in EXCLUDED`. -/
def isIncluded (s : ProxySubcollection) : Bool := !(EXCLUDED.contains s.name)

/-- Lines 182-183: `"isPublic" in subcollection.metadata.keys() and
subcollection.metadata[IS_PUBLIC_KEY].value == IS_PUBLIC_VALUE` (the code
spells the key both as a literal and as the constant; they are the same
string). -/
def isPublicSub (s : ProxySubcollection) : Bool :=
  (s.metadata.lookup "isPublic").isSome &&
    (s.metadata.lookup IS_PUBLIC_KEY == some IS_PUBLIC_VALUE)

/-- Line 193: the walked data objects whose lowercased name ends with the
NetCDF extension. -/
def netcdfObjects (s : ProxySubcollection) : List (String × Timestamp) :=
  (walkObjects s.node).filter (fun obj => obj.1.toLower.endsWith NETCDF_EXTENSION)

/-- Line 199 resolves the collection again by path
`os.path.join(proxy_path, resource_id)`: the first subcollection carrying
that name (iRODS collection names under one path are unique). -/
def findSub (subs : List ProxySubcollection) (resource_id : String) : RemoteNode :=
  match subs.find? (fun s => s.name == resource_id) with
  | some s => s.node
  | none => .coll resource_id []

/-- Lines 199-200: pair every kept resource id with its latest timestamp;
the first `ValueError` out of `max` aborts the whole comprehension. -/
def resolveTimestamps (subs : List ProxySubcollection) :
    List String → Except String (List (String × Timestamp))
  | [] => .ok []
  | id :: ids =>
      match get_latest_resource_timestamp (findSub subs id) with
      | .error msg => .error msg
      | .ok t =>
          match resolveTimestamps subs ids with
          | .error msg => .error msg
          | .ok rest => .ok ((id, t) :: rest)

/-- `scan_source(irods_env, proxy_path)` (lines 161-201): drop the excluded
names, keep the publicly-annotated subcollections, keep those holding at
least one NetCDF data object, then resolve each survivor's latest
timestamp. -/
def scan_source (subs : List ProxySubcollection) :
    Except String (List (String × Timestamp)) :=
  let subcollections := subs.filter isIncluded
  let pub := subcollections.filter isPublicSub
  let public_netcdf :=
    (pub.filter (fun s => !(netcdfObjects s).isEmpty)).map ProxySubcollection.name
  resolveTimestamps subs public_netcdf

theorem get_latest_ok_of_nonempty (c : RemoteNode) (h : walkObjects c ≠ []) :
    ∃ t, get_latest_resource_timestamp c = .ok t := by
  unfold get_latest_resource_timestamp
  cases hw : (walkObjects c).map Prod.snd with
  | nil => exact absurd (List.map_eq_nil_iff.mp hw) h
  | cons t rest => exact ⟨rest.foldl max t, rfl⟩

theorem find?_name_eq (subs : List ProxySubcollection)
    (hnd : (subs.map ProxySubcollection.name).Nodup)
    (s : ProxySubcollection) (hmem : s ∈ subs) :
    subs.find? (fun x => x.name == s.name) = some s := by
  induction subs with
  | nil => cases hmem
  | cons c rest ih =>
    have hnd2 : c.name ∉ rest.map ProxySubcollection.name ∧
        (rest.map ProxySubcollection.name).Nodup := by
      have : (c.name :: rest.map ProxySubcollection.name).Nodup := hnd
      exact List.nodup_cons.mp this
    by_cases hc : c.name = s.name
    · rw [List.find?_cons_of_pos _ (by simpa using hc)]
      rcases List.mem_cons.mp hmem with rfl | hm
      · rfl
      · exact absurd (by rw [hc]; exact List.mem_map_of_mem _ hm) hnd2.1
    · rw [List.find?_cons_of_neg _ (by simpa using hc)]
      rcases List.mem_cons.mp hmem with rfl | hm
      · exact absurd rfl hc
      · exact ih hnd2.2 hm

theorem resolveTimestamps_ok (subs : List ProxySubcollection) (ids : List String)
    (h : ∀ id ∈ ids, walkObjects (findSub subs id) ≠ []) :
    ∃ l, resolveTimestamps subs ids = .ok l ∧ l.map Prod.fst = ids := by
  induction ids with
  | nil => exact ⟨[], rfl, rfl⟩
  | cons id ids ih =>
    obtain ⟨t, ht⟩ := get_latest_ok_of_nonempty _ (h id (List.mem_cons_self _ _))
    obtain ⟨l, hl, hmap⟩ := ih (fun x hx => h x (List.mem_cons_of_mem _ hx))
    refine ⟨(id, t) :: l, ?_, by rw [List.map_cons, hmap]⟩
    show (match get_latest_resource_timestamp (findSub subs id) with
      | .error msg => .error msg
      | .ok t =>
          match resolveTimestamps subs ids with
          | .error msg => .error msg
          | .ok rest => .ok ((id, t) :: rest)) = Except.ok ((id, t) :: l)
    rw [ht, hl]

/-- The combined survivor predicate of the three filters at lines 178-196. -/
def eligibleSub (s : ProxySubcollection) : Bool :=
  !(netcdfObjects s).isEmpty && isPublicSub s && isIncluded s

theorem scan_source_ids (subs : List ProxySubcollection) :
    scan_source subs =
      resolveTimestamps subs ((subs.filter eligibleSub).map ProxySubcollection.name) := by
  unfold scan_source
  show resolveTimestamps subs
      ((((subs.filter isIncluded).filter isPublicSub).filter
        (fun s => !(netcdfObjects s).isEmpty)).map ProxySubcollection.name) = _
  rw [List.filter_filter, List.filter_filter]
  rfl

/-- Every eligible subcollection holds a data object, so its timestamp
resolution succeeds. -/
theorem eligible_walk_ne_nil (s : ProxySubcollection) (h : eligibleSub s = true) :
    walkObjects s.node ≠ [] := by
  have h1 : (!(netcdfObjects s).isEmpty) = true :=
    (Bool.and_eq_true_iff.mp (Bool.and_eq_true_iff.mp h).1).1
  have h2 : netcdfObjects s ≠ [] := by
    rw [Bool.not_eq_eq_eq_not] at h1
    exact List.isEmpty_eq_false.mp (by simpa using h1)
  intro hw
  apply h2
  unfold netcdfObjects
  rw [hw]
  rfl

/-- **C5**: with distinct subcollection names (collection names under one
iRODS path are unique), the source scan succeeds, and a collection's name
appears in the resulting inventory exactly when the collection is not in
the exclusion set, its first `isPublic` metadata value is exactly `true`,
and it holds at least one data object whose lowercased name ends in
`.nc`. -/
theorem scan_source_filter (subs : List ProxySubcollection)
    (hnd : (subs.map ProxySubcollection.name).Nodup)
    (s : ProxySubcollection) (hmem : s ∈ subs) :
    ∃ l, scan_source subs = .ok l ∧
      (s.name ∈ l.map Prod.fst ↔
        (s.name ∉ EXCLUDED ∧
         s.metadata.lookup IS_PUBLIC_KEY = some IS_PUBLIC_VALUE ∧
         ∃ obj ∈ walkObjects s.node,
           obj.1.toLower.endsWith NETCDF_EXTENSION = true)) := by
  have hresolve : ∀ id ∈ (subs.filter eligibleSub).map ProxySubcollection.name,
      walkObjects (findSub subs id) ≠ [] := by
    intro id hid
    rcases List.mem_map.mp hid with ⟨s2, hs2, rfl⟩
    have hs2sub : s2 ∈ subs := (List.mem_filter.mp hs2).1
    have hs2el : eligibleSub s2 = true := (List.mem_filter.mp hs2).2
    unfold findSub
    rw [find?_name_eq subs hnd s2 hs2sub]
    exact eligible_walk_ne_nil s2 hs2el
  obtain ⟨l, hl, hmap⟩ := resolveTimestamps_ok subs _ hresolve
  rw [scan_source_ids]
  refine ⟨l, hl, ?_⟩
  rw [hmap]
  constructor
  · intro hin
    rcases List.mem_map.mp hin with ⟨s2, hs2, hname⟩
    have hs2sub : s2 ∈ subs := (List.mem_filter.mp hs2).1
    have hs2el : eligibleSub s2 = true := (List.mem_filter.mp hs2).2
    have hss : s2 = s := List.inj_on_of_nodup_map hnd hs2sub hmem hname
    subst hss
    have hparts := Bool.and_eq_true_iff.mp hs2el
    have hparts2 := Bool.and_eq_true_iff.mp hparts.1
    refine ⟨?_, ?_, ?_⟩
    · have : (!(EXCLUDED.contains s2.name)) = true := hparts.2
      simpa using this
    · have hp : ((s2.metadata.lookup "isPublic").isSome &&
          (s2.metadata.lookup IS_PUBLIC_KEY == some IS_PUBLIC_VALUE)) = true := hparts2.2
      exact beq_iff_eq.mp (Bool.and_eq_true_iff.mp hp).2
    · have h1 : (!(netcdfObjects s2).isEmpty) = true := hparts2.1
      have h2 : netcdfObjects s2 ≠ [] := by
        rw [Bool.not_eq_eq_eq_not] at h1
        exact List.isEmpty_eq_false.mp (by simpa using h1)
      rcases List.exists_mem_of_ne_nil _ h2 with ⟨obj, hobj⟩
      have := List.mem_filter.mp hobj
      exact ⟨obj, this.1, this.2⟩
  · rintro ⟨hex, hpub, obj, hobj, hnc⟩
    have hel : eligibleSub s = true := by
      unfold eligibleSub
      have e1 : isIncluded s = true := by
        unfold isIncluded
        simpa using hex
      have e2 : isPublicSub s = true := by
        unfold isPublicSub
        have hkey : s.metadata.lookup "isPublic" = some IS_PUBLIC_VALUE := hpub
        rw [hkey]
        have : (s.metadata.lookup IS_PUBLIC_KEY == some IS_PUBLIC_VALUE) = true :=
          beq_iff_eq.mpr hpub
        rw [this]
        rfl
      have e3 : (!(netcdfObjects s).isEmpty) = true := by
        have hne : netcdfObjects s ≠ [] := by
          apply List.ne_nil_of_mem
          exact List.mem_filter.mpr ⟨hobj, hnc⟩
        rw [Bool.not_eq_eq_eq_not]
        simpa using List.isEmpty_eq_false.mpr hne
      rw [e1, e2, e3]
      rfl
    exact List.mem_map_of_mem _ (List.mem_filter.mpr ⟨hmem, hel⟩)

/-- Witness for C5: two subcollections, one fully eligible, one excluded
by name; the eligible one appears in the inventory. -/
theorem scan_source_filter_witness :
    ∃ l, scan_source
        [⟨"abcdefghabcdefghabcdefghabcdefgh", [("isPublic", "true")],
          [.dataObject "Data File.NC" 11]⟩,
         ⟨"bags", [("isPublic", "true")], [.dataObject "b.nc" 3]⟩] = .ok l ∧
      (("abcdefghabcdefghabcdefghabcdefgh" : String) ∈ l.map Prod.fst ↔
        (("abcdefghabcdefghabcdefghabcdefgh" : String) ∉ EXCLUDED ∧
         List.lookup IS_PUBLIC_KEY [(("isPublic" : String), ("true" : String))] =
           some IS_PUBLIC_VALUE ∧
         ∃ obj ∈ walkObjects (ProxySubcollection.node
             ⟨"abcdefghabcdefghabcdefghabcdefgh", [("isPublic", "true")],
              [.dataObject "Data File.NC" 11]⟩),
           obj.1.toLower.endsWith NETCDF_EXTENSION = true)) :=
  scan_source_filter
    [⟨"abcdefghabcdefghabcdefghabcdefgh", [("isPublic", "true")],
      [.dataObject "Data File.NC" 11]⟩,
     ⟨"bags", [("isPublic", "true")], [.dataObject "b.nc" 3]⟩]
    (by decide)
    ⟨"abcdefghabcdefghabcdefghabcdefgh", [("isPublic", "true")],
      [.dataObject "Data File.NC" 11]⟩
    (List.mem_cons_self _ _)

/-! ## Destination scanning and the sync driver (lines 204-288)

The driver's effects on the catalog directory are modelled by explicit
state passing over `Catalog`.  The bulk copy's outcome per resource and
the `shutil.rmtree` outcome per entry are oracles supplied as functions,
so the two failure-handling policies (catch-and-continue for publishes,
propagate-and-abort for removals) are both observable. -/

/-- The destination catalog directory: all its top-level entries, each
with the entry's filesystem mtime. -/
structure Catalog where
  entries : List (String × Timestamp)
deriving Repr

/-- Whether a name begins with a dot (`glob.glob` hides such names). -/
def startsWithDot (n : String) : Bool :=
  match n.data with
  | '.' :: _ => true
  | _ => false

/-- Whether a name matches `RESOURCE_ID_GLOB`: the pattern is 32 `?`
wildcards, each matching one character, and `glob.glob` hides names that
start with a dot. -/
def matchesResourceIdGlob (n : String) : Bool :=
  n.length == 32 && !(startsWithDot n)

/-- `scan_destination(catalog_path)` (lines 204-222): the glob-matching
top-level entries paired with their mtimes. -/
def scan_destination (c : Catalog) : List (String × Timestamp) :=
  c.entries.filter (fun e => matchesResourceIdGlob e.1)

/-- `destination_ids.index(source_id)` (line 272): index of the first
occurrence. -/
def indexOfName : List String → String → Nat
  | [], _ => 0
  | x :: xs, a => if x = a then 0 else indexOfName xs a + 1

/-- The publish decision of lines 268-274: publish when the id is absent
from the scanned destination ids, otherwise when the source timestamp
strictly exceeds the destination timestamp at the id's first index. -/
def duePublish (destination_ids : List String)
    (destination_timestamps : List Timestamp)
    (source_id : String) (source_timestamp : Timestamp) : Bool :=
  if destination_ids.contains source_id then
    decide (destination_timestamps.getD (indexOfName destination_ids source_id) 0 <
      source_timestamp)
  else true

/-- The effect of a successful publish on the catalog: `iget -rf`
overwrites or creates the entry `catalog_path/resource_id`, and `os.utime`
stamps its mtime (and atime) with the resolved source timestamp. -/
def setEntry (c : Catalog) (id : String) (ts : Timestamp) : Catalog :=
  if c.entries.any (fun e => e.1 == id) then
    ⟨c.entries.map (fun e => if e.1 == id then (e.1, ts) else e)⟩
  else ⟨c.entries ++ [(id, ts)]⟩

/-- `shutil.rmtree(os.path.join(catalog_path, resource_id))`
(lines 225-238): drop the top-level entry. -/
def removeEntry (c : Catalog) (id : String) : Catalog :=
  ⟨c.entries.filter (fun e => !(e.1 == id))⟩

/-- The externally-determined behaviour of the publish step during a run:
whether `iget` exits non-zero for a resource id (raising
`NetCDFPublicationError`), the timestamp the publisher resolves and stamps
on success, and the partial destination state a failed copy leaves behind
(`iget -f` into the catalog may create a partial tree). -/
structure PublishBehavior where
  fails : String → Bool
  ts : String → Timestamp
  onFail : String → Catalog → Catalog

/-- The observable outcome of the publish loop. -/
structure PublishPhase where
  catalog : Catalog
  attempted : List String
  succeeded : List String
  warningsLogged : Nat

/-- The publish loop of lines 266-278: decide each source item against the
initial destination scan, attempt the publish when due, catch
`NetCDFPublicationError` (log the "incomplete" warning) and continue with
the next item. -/
def publishLoop (b : PublishBehavior) (destination_ids : List String)
    (destination_timestamps : List Timestamp) :
    List (String × Timestamp) → Catalog → PublishPhase
  | [], cat => ⟨cat, [], [], 0⟩
  | (source_id, source_timestamp) :: rest, cat =>
      if duePublish destination_ids destination_timestamps source_id source_timestamp then
        if b.fails source_id then
          let r := publishLoop b destination_ids destination_timestamps rest
            (b.onFail source_id cat)
          ⟨r.catalog, source_id :: r.attempted, r.succeeded, r.warningsLogged + 1⟩
        else
          let r := publishLoop b destination_ids destination_timestamps rest
            (setEntry cat source_id (b.ts source_id))
          ⟨r.catalog, source_id :: r.attempted, source_id :: r.succeeded, r.warningsLogged⟩
      else publishLoop b destination_ids destination_timestamps rest cat

/-- The uncaught `OSError` out of `shutil.rmtree` for one entry. -/
structure RemovalError where
  resource_id : String
deriving Repr, DecidableEq

/-- The observable outcome of the removal loop. -/
structure RemovalPhase where
  catalog : Catalog
  removed : List String
  failure : Option RemovalError

/-- The removal loop of lines 281-284: remove every re-scanned destination
entry whose id is absent from the original source scan.  No exception
handler surrounds `remove_resource`: the first `rmtree` failure stops the
loop and propagates. -/
def removalLoop (rmFails : String → Bool) (source_ids : List String) :
    List (String × Timestamp) → Catalog → RemovalPhase
  | [], cat => ⟨cat, [], none⟩
  | (destination_id, _) :: rest, cat =>
      if source_ids.contains destination_id then
        removalLoop rmFails source_ids rest cat
      else if rmFails destination_id then ⟨cat, [], some ⟨destination_id⟩⟩
      else
        let r := removalLoop rmFails source_ids rest (removeEntry cat destination_id)
        ⟨r.catalog, destination_id :: r.removed, r.failure⟩

/-- The observable outcome of one sync run. -/
structure SyncRun where
  catalog : Catalog
  attempted : List String
  succeeded : List String
  warningsLogged : Nat
  removed : List String
  failure : Option RemovalError

/-- `sync_resources(irods_env, proxy_path, catalog_path)` (lines 241-288),
driven by the already-scanned source inventory: scan the destination once,
run the publish loop against that scan, re-scan the destination, and run
the removal loop against the original source ids. -/
def sync_resources (b : PublishBehavior) (rmFails : String → Bool)
    (source_netcdf : List (String × Timestamp)) (cat0 : Catalog) : SyncRun :=
  let destination_netcdf := scan_destination cat0
  let destination_ids := destination_netcdf.map Prod.fst
  let destination_timestamps := destination_netcdf.map Prod.snd
  let p := publishLoop b destination_ids destination_timestamps source_netcdf cat0
  let destination_netcdf2 := scan_destination p.catalog
  let source_ids := source_netcdf.map Prod.fst
  let r := removalLoop rmFails source_ids destination_netcdf2 p.catalog
  ⟨r.catalog, p.attempted, p.succeeded, p.warningsLogged, r.removed, r.failure⟩

/-- The catalog state after the publish phase (what the second
`scan_destination` at line 279 sees). -/
def postPublishCatalog (b : PublishBehavior)
    (source_netcdf : List (String × Timestamp)) (cat0 : Catalog) : Catalog :=
  (publishLoop b ((scan_destination cat0).map Prod.fst)
    ((scan_destination cat0).map Prod.snd) source_netcdf cat0).catalog

/-! ### Behaviour of the two loops -/

theorem publishLoop_attempted (b : PublishBehavior) (dids : List String)
    (dts : List Timestamp) (src : List (String × Timestamp)) (cat : Catalog) :
    (publishLoop b dids dts src cat).attempted =
      (src.filter (fun s => duePublish dids dts s.1 s.2)).map Prod.fst := by
  induction src generalizing cat with
  | nil => rfl
  | cons s rest ih =>
    obtain ⟨source_id, source_timestamp⟩ := s
    show (if duePublish dids dts source_id source_timestamp then
        if b.fails source_id then _ else _
      else publishLoop b dids dts rest cat).attempted = _
    by_cases hdue : duePublish dids dts source_id source_timestamp = true
    · rw [if_pos hdue]
      have hfilter : (((source_id, source_timestamp) :: rest).filter
          (fun s => duePublish dids dts s.1 s.2)).map Prod.fst =
          source_id :: ((rest.filter (fun s => duePublish dids dts s.1 s.2)).map Prod.fst) := by
        rw [List.filter_cons_of_pos (by simpa using hdue), List.map_cons]
      rw [hfilter]
      by_cases hf : b.fails source_id = true
      · rw [if_pos hf]
        show source_id :: (publishLoop b dids dts rest (b.onFail source_id cat)).attempted = _
        rw [ih (b.onFail source_id cat)]
      · rw [if_neg hf]
        show source_id :: (publishLoop b dids dts rest
          (setEntry cat source_id (b.ts source_id))).attempted = _
        rw [ih (setEntry cat source_id (b.ts source_id))]
    · rw [if_neg hdue]
      rw [List.filter_cons_of_neg (by simpa using hdue)]
      exact ih cat

theorem publishLoop_warnings (b : PublishBehavior) (dids : List String)
    (dts : List Timestamp) (src : List (String × Timestamp)) (cat : Catalog) :
    (publishLoop b dids dts src cat).warningsLogged =
      ((src.filter (fun s => duePublish dids dts s.1 s.2)).filter
        (fun s => b.fails s.1)).length := by
  induction src generalizing cat with
  | nil => rfl
  | cons s rest ih =>
    obtain ⟨source_id, source_timestamp⟩ := s
    show (if duePublish dids dts source_id source_timestamp then
        if b.fails source_id then _ else _
      else publishLoop b dids dts rest cat).warningsLogged = _
    by_cases hdue : duePublish dids dts source_id source_timestamp = true
    · rw [if_pos hdue, List.filter_cons_of_pos (by simpa using hdue)]
      by_cases hf : b.fails source_id = true
      · rw [if_pos hf, List.filter_cons_of_pos (by simpa using hf), List.length_cons]
        show (publishLoop b dids dts rest (b.onFail source_id cat)).warningsLogged + 1 = _
        rw [ih (b.onFail source_id cat)]
      · rw [if_neg hf, List.filter_cons_of_neg (by simpa using hf)]
        show (publishLoop b dids dts rest
          (setEntry cat source_id (b.ts source_id))).warningsLogged = _
        rw [ih (setEntry cat source_id (b.ts source_id))]
    · rw [if_neg hdue, List.filter_cons_of_neg (by simpa using hdue)]
      exact ih cat

theorem removalLoop_no_failure (source_ids : List String)
    (dl : List (String × Timestamp)) (cat : Catalog) :
    (removalLoop (fun _ => false) source_ids dl cat).removed =
      (dl.map Prod.fst).filter (fun i => !(source_ids.contains i)) ∧
    (removalLoop (fun _ => false) source_ids dl cat).failure = none := by
  induction dl generalizing cat with
  | nil => exact ⟨rfl, rfl⟩
  | cons d rest ih =>
    obtain ⟨destination_id, dts⟩ := d
    by_cases hc : source_ids.contains destination_id = true
    · have he : removalLoop (fun _ => false) source_ids ((destination_id, dts) :: rest) cat =
          removalLoop (fun _ => false) source_ids rest cat := by
        show (if source_ids.contains destination_id then _ else _) = _
        rw [if_pos hc]
      have hfil : (((destination_id, dts) :: rest).map Prod.fst).filter
          (fun i => !(source_ids.contains i)) =
          (rest.map Prod.fst).filter (fun i => !(source_ids.contains i)) := by
        rw [List.map_cons, List.filter_cons_of_neg (by simpa using hc)]
      rw [he, hfil]
      exact ih cat
    · have he : removalLoop (fun _ => false) source_ids ((destination_id, dts) :: rest) cat =
          ⟨(removalLoop (fun _ => false) source_ids rest
              (removeEntry cat destination_id)).catalog,
           destination_id :: (removalLoop (fun _ => false) source_ids rest
              (removeEntry cat destination_id)).removed,
           (removalLoop (fun _ => false) source_ids rest
              (removeEntry cat destination_id)).failure⟩ := by
        show (if source_ids.contains destination_id then _ else _) = _
        rw [if_neg hc]
        show (if false = true then _ else _) = _
        rw [if_neg (by simp)]
      have hfil : (((destination_id, dts) :: rest).map Prod.fst).filter
          (fun i => !(source_ids.contains i)) =
          destination_id ::
            ((rest.map Prod.fst).filter (fun i => !(source_ids.contains i))) := by
        rw [List.map_cons, List.filter_cons_of_pos (by simpa using hc)]
      rw [he, hfil]
      have h2 := ih (removeEntry cat destination_id)
      exact ⟨by show destination_id :: _ = _; rw [h2.1], h2.2⟩

theorem removalLoop_removed_subset (rmFails : String → Bool) (source_ids : List String)
    (dl : List (String × Timestamp)) (cat : Catalog) :
    ∀ x ∈ (removalLoop rmFails source_ids dl cat).removed, x ∈ dl.map Prod.fst := by
  induction dl generalizing cat with
  | nil => intro x hx; cases hx
  | cons d rest ih =>
    obtain ⟨destination_id, dts⟩ := d
    intro x hx
    show x ∈ destination_id :: rest.map Prod.fst
    by_cases hc : source_ids.contains destination_id = true
    · have hx2 : x ∈ (removalLoop rmFails source_ids rest cat).removed := by
        have he : removalLoop rmFails source_ids ((destination_id, dts) :: rest) cat =
            removalLoop rmFails source_ids rest cat := by
          show (if source_ids.contains destination_id then _ else _) = _
          rw [if_pos hc]
        rw [he] at hx
        exact hx
      exact List.mem_cons_of_mem _ (ih cat x hx2)
    · by_cases hf : rmFails destination_id = true
      · have he : removalLoop rmFails source_ids ((destination_id, dts) :: rest) cat =
            ⟨cat, [], some ⟨destination_id⟩⟩ := by
          show (if source_ids.contains destination_id then _ else _) = _
          rw [if_neg hc]
          show (if rmFails destination_id = true then _ else _) = _
          rw [if_pos hf]
        rw [he] at hx
        cases hx
      · have he : removalLoop rmFails source_ids ((destination_id, dts) :: rest) cat =
            ⟨(removalLoop rmFails source_ids rest (removeEntry cat destination_id)).catalog,
             destination_id :: (removalLoop rmFails source_ids rest
               (removeEntry cat destination_id)).removed,
             (removalLoop rmFails source_ids rest (removeEntry cat destination_id)).failure⟩ := by
          show (if source_ids.contains destination_id then _ else _) = _
          rw [if_neg hc]
          show (if rmFails destination_id = true then _ else _) = _
          rw [if_neg hf]
        rw [he] at hx
        rcases List.mem_cons.mp hx with rfl | hxm
        · exact List.mem_cons_self _ _
        · exact List.mem_cons_of_mem _ (ih (removeEntry cat destination_id) x hxm)

theorem removalLoop_abort (rmFails : String → Bool) (source_ids : List String)
    (dl : List (String × Timestamp)) (cat : Catalog)
    (pre post : List String) (bad : String)
    (hsplit : (dl.map Prod.fst).filter (fun i => !(source_ids.contains i)) =
      pre ++ bad :: post)
    (hpre : ∀ x ∈ pre, rmFails x = false) (hbad : rmFails bad = true) :
    (removalLoop rmFails source_ids dl cat).removed = pre ∧
    (removalLoop rmFails source_ids dl cat).failure = some ⟨bad⟩ := by
  induction dl generalizing cat pre with
  | nil =>
    exact absurd hsplit.symm (List.append_ne_nil_of_right_ne_nil pre (by simp))
  | cons d rest ih =>
    obtain ⟨destination_id, dts⟩ := d
    by_cases hc : source_ids.contains destination_id = true
    · have he : removalLoop rmFails source_ids ((destination_id, dts) :: rest) cat =
          removalLoop rmFails source_ids rest cat := by
        show (if source_ids.contains destination_id then _ else _) = _
        rw [if_pos hc]
      have hfil : (((destination_id, dts) :: rest).map Prod.fst).filter
          (fun i => !(source_ids.contains i)) =
          (rest.map Prod.fst).filter (fun i => !(source_ids.contains i)) := by
        rw [List.map_cons, List.filter_cons_of_neg (by simpa using hc)]
      rw [he]
      rw [hfil] at hsplit
      exact ih cat pre hsplit hpre
    · have hfil : (((destination_id, dts) :: rest).map Prod.fst).filter
          (fun i => !(source_ids.contains i)) =
          destination_id ::
            ((rest.map Prod.fst).filter (fun i => !(source_ids.contains i))) := by
        rw [List.map_cons, List.filter_cons_of_pos (by simpa using hc)]
      rw [hfil] at hsplit
      cases pre with
      | nil =>
        have hh : destination_id = bad ∧
            (rest.map Prod.fst).filter (fun i => !(source_ids.contains i)) = post := by
          have := hsplit
          rw [List.nil_append] at this
          exact ⟨(List.cons.injEq _ _ _ _).mp this |>.1,
            (List.cons.injEq _ _ _ _).mp this |>.2⟩
        have he : removalLoop rmFails source_ids ((destination_id, dts) :: rest) cat =
            ⟨cat, [], some ⟨destination_id⟩⟩ := by
          show (if source_ids.contains destination_id then _ else _) = _
          rw [if_neg hc]
          show (if rmFails destination_id = true then _ else _) = _
          rw [if_pos (by rw [hh.1]; exact hbad)]
        rw [he, hh.1]
        exact ⟨rfl, rfl⟩
      | cons p0 pre2 =>
        have hh : destination_id = p0 ∧
            (rest.map Prod.fst).filter (fun i => !(source_ids.contains i)) =
              pre2 ++ bad :: post := by
          have := hsplit
          rw [List.cons_append] at this
          exact ⟨(List.cons.injEq _ _ _ _).mp this |>.1,
            (List.cons.injEq _ _ _ _).mp this |>.2⟩
        have hf : rmFails destination_id = false := by
          rw [hh.1]
          exact hpre p0 (List.mem_cons_self _ _)
        have he : removalLoop rmFails source_ids ((destination_id, dts) :: rest) cat =
            ⟨(removalLoop rmFails source_ids rest (removeEntry cat destination_id)).catalog,
             destination_id :: (removalLoop rmFails source_ids rest
               (removeEntry cat destination_id)).removed,
             (removalLoop rmFails source_ids rest
               (removeEntry cat destination_id)).failure⟩ := by
          show (if source_ids.contains destination_id then _ else _) = _
          rw [if_neg hc]
          show (if rmFails destination_id = true then _ else _) = _
          rw [if_neg (by rw [hf]; simp)]
        rw [he]
        have hrec := ih (removeEntry cat destination_id) pre2 hh.2
          (fun x hx => hpre x (List.mem_cons_of_mem _ hx))
        refine ⟨?_, hrec.2⟩
        show destination_id :: _ = p0 :: pre2
        rw [hrec.1, hh.1]

/-- The destination's recorded timestamp for an identifier: the timestamp
of the first scanned entry carrying that identifier. -/
def recordedTs (dest : List (String × Timestamp)) (id : String) : Option Timestamp :=
  (dest.find? (fun e => e.1 == id)).map Prod.snd

theorem indexOfName_cons (x : String) (xs : List String) (a : String) :
    indexOfName (x :: xs) a = if x = a then 0 else indexOfName xs a + 1 := rfl

theorem getD_indexOfName (dest : List (String × Timestamp)) (id : String)
    (hmem : id ∈ dest.map Prod.fst) :
    ∃ rts, recordedTs dest id = some rts ∧
      (dest.map Prod.snd).getD (indexOfName (dest.map Prod.fst) id) 0 = rts := by
  induction dest with
  | nil => cases hmem
  | cons d rest ih =>
    obtain ⟨a, t⟩ := d
    by_cases ha : a = id
    · refine ⟨t, ?_, ?_⟩
      · unfold recordedTs
        rw [List.find?_cons_of_pos _ (by simpa using ha)]
        rfl
      · show (t :: rest.map Prod.snd).getD (indexOfName (a :: rest.map Prod.fst) id) 0 = t
        have : indexOfName (a :: rest.map Prod.fst) id = 0 := by
          rw [indexOfName_cons, if_pos ha]
        rw [this]
        rfl
    · have hmem2 : id ∈ rest.map Prod.fst := by
        rcases List.mem_cons.mp hmem with h | h
        · exact absurd h.symm ha
        · exact h
      obtain ⟨rts, h1, h2⟩ := ih hmem2
      refine ⟨rts, ?_, ?_⟩
      · unfold recordedTs
        rw [List.find?_cons_of_neg _ (by simpa using ha)]
        exact h1
      · show (t :: rest.map Prod.snd).getD (indexOfName (a :: rest.map Prod.fst) id) 0 = rts
        have : indexOfName (a :: rest.map Prod.fst) id =
            indexOfName (rest.map Prod.fst) id + 1 := by
          rw [indexOfName_cons, if_neg ha]
        rw [this, List.getD_cons_succ]
        exact h2

/-- The publish decision, characterized: publish exactly when the id is
absent from the scanned destination or its recorded timestamp is strictly
older than the source timestamp. -/
theorem duePublish_iff (dest : List (String × Timestamp)) (id : String) (ts : Timestamp) :
    duePublish (dest.map Prod.fst) (dest.map Prod.snd) id ts = true ↔
      (id ∉ dest.map Prod.fst ∨
       ∃ rts, recordedTs dest id = some rts ∧ rts < ts) := by
  unfold duePublish
  by_cases hc : id ∈ dest.map Prod.fst
  · rw [if_pos (by simpa using hc)]
    obtain ⟨rts, h1, h2⟩ := getD_indexOfName dest id hc
    rw [h2]
    constructor
    · intro h
      exact Or.inr ⟨rts, h1, of_decide_eq_true h⟩
    · rintro (h | ⟨rts2, h3, h4⟩)
      · exact absurd hc h
      · rw [h1] at h3
        injection h3 with h5
        rw [h5]
        exact decide_eq_true h4
  · rw [if_neg (by simpa using hc)]
    exact ⟨fun _ => Or.inl hc, fun _ => rfl⟩

theorem sync_resources_attempted (b : PublishBehavior) (rmFails : String → Bool)
    (src : List (String × Timestamp)) (cat0 : Catalog) :
    (sync_resources b rmFails src cat0).attempted =
      (publishLoop b ((scan_destination cat0).map Prod.fst)
        ((scan_destination cat0).map Prod.snd) src cat0).attempted := rfl

theorem sync_resources_warnings (b : PublishBehavior) (rmFails : String → Bool)
    (src : List (String × Timestamp)) (cat0 : Catalog) :
    (sync_resources b rmFails src cat0).warningsLogged =
      (publishLoop b ((scan_destination cat0).map Prod.fst)
        ((scan_destination cat0).map Prod.snd) src cat0).warningsLogged := rfl

theorem sync_resources_removed (b : PublishBehavior) (rmFails : String → Bool)
    (src : List (String × Timestamp)) (cat0 : Catalog) :
    (sync_resources b rmFails src cat0).removed =
      (removalLoop rmFails (src.map Prod.fst)
        (scan_destination (postPublishCatalog b src cat0))
        (postPublishCatalog b src cat0)).removed := rfl

theorem sync_resources_failure (b : PublishBehavior) (rmFails : String → Bool)
    (src : List (String × Timestamp)) (cat0 : Catalog) :
    (sync_resources b rmFails src cat0).failure =
      (removalLoop rmFails (src.map Prod.fst)
        (scan_destination (postPublishCatalog b src cat0))
        (postPublishCatalog b src cat0)).failure := rfl

/-- **C1**: the sync driver attempts to publish a source item exactly when
its identifier is absent from the scanned destination inventory, or its
source timestamp strictly exceeds the destination's recorded timestamp for
that identifier; with an equal or older source timestamp the item is not
published.  `hnd` is the scan invariant that source identifiers are unique
(collection names under one iRODS path are unique). -/
theorem sync_publishes_iff (b : PublishBehavior) (rmFails : String → Bool)
    (source_netcdf : List (String × Timestamp)) (cat0 : Catalog)
    (id : String) (ts : Timestamp)
    (hnd : (source_netcdf.map Prod.fst).Nodup)
    (hmem : (id, ts) ∈ source_netcdf) :
    id ∈ (sync_resources b rmFails source_netcdf cat0).attempted ↔
      (id ∉ (scan_destination cat0).map Prod.fst ∨
       ∃ rts, recordedTs (scan_destination cat0) id = some rts ∧ rts < ts) := by
  rw [sync_resources_attempted, publishLoop_attempted,
    ← duePublish_iff (scan_destination cat0) id ts]
  constructor
  · intro h
    rcases List.mem_map.mp h with ⟨s, hs, hname⟩
    have hsrc : s ∈ source_netcdf := (List.mem_filter.mp hs).1
    have hdue := (List.mem_filter.mp hs).2
    have hse : s = (id, ts) := List.inj_on_of_nodup_map hnd hsrc hmem hname
    rw [hse] at hdue
    exact hdue
  · intro h
    exact List.mem_map_of_mem _ (List.mem_filter.mpr ⟨hmem, h⟩)

/-- Witness for C1: a stale destination entry (mtime 3) against source
timestamp 5 is due for publication. -/
theorem sync_publishes_iff_witness :
    ("aaaabbbbccccddddeeeeffffgggghhhh" : String) ∈
      (sync_resources ⟨fun _ => false, fun _ => 5, fun _ c => c⟩ (fun _ => false)
        [("aaaabbbbccccddddeeeeffffgggghhhh", 5)]
        ⟨[("aaaabbbbccccddddeeeeffffgggghhhh", 3)]⟩).attempted ↔
      (("aaaabbbbccccddddeeeeffffgggghhhh" : String) ∉
        (scan_destination ⟨[("aaaabbbbccccddddeeeeffffgggghhhh", 3)]⟩).map Prod.fst ∨
       ∃ rts, recordedTs (scan_destination ⟨[("aaaabbbbccccddddeeeeffffgggghhhh", 3)]⟩)
          "aaaabbbbccccddddeeeeffffgggghhhh" = some rts ∧ rts < 5) :=
  sync_publishes_iff ⟨fun _ => false, fun _ => 5, fun _ c => c⟩ (fun _ => false)
    [("aaaabbbbccccddddeeeeffffgggghhhh", 5)]
    ⟨[("aaaabbbbccccddddeeeeffffgggghhhh", 3)]⟩
    "aaaabbbbccccddddeeeeffffgggghhhh" 5 (by decide) (List.mem_cons_self _ _)

/-- **C2**: publish failures are isolated per item: under any pattern of
per-item bulk-copy failures the attempted publishes are exactly those of a
failure-free run — no item's failure aborts the loop or prevents a later
item's attempt — and every failed attempt is caught and logged as one
warning, after which the loop continues. -/
theorem sync_publish_failures_isolated (b : PublishBehavior) (rmFails : String → Bool)
    (source_netcdf : List (String × Timestamp)) (cat0 : Catalog) :
    (sync_resources b rmFails source_netcdf cat0).attempted =
      (sync_resources ⟨fun _ => false, b.ts, b.onFail⟩ rmFails source_netcdf cat0).attempted ∧
    (sync_resources b rmFails source_netcdf cat0).warningsLogged =
      ((source_netcdf.filter (fun s => duePublish
          ((scan_destination cat0).map Prod.fst)
          ((scan_destination cat0).map Prod.snd) s.1 s.2)).filter
        (fun s => b.fails s.1)).length := by
  constructor
  · rw [sync_resources_attempted, sync_resources_attempted,
      publishLoop_attempted, publishLoop_attempted]
  · rw [sync_resources_warnings, publishLoop_warnings]

/-- **C3**: with removals succeeding, a sync run removes exactly the
identifiers of the re-scanned destination inventory (taken after the
publish phase) that are absent from the original source scan, in scan
order; an identifier present in the original source inventory is never
removed. -/
theorem sync_removes_exactly_orphans (b : PublishBehavior)
    (source_netcdf : List (String × Timestamp)) (cat0 : Catalog) :
    (sync_resources b (fun _ => false) source_netcdf cat0).removed =
      ((scan_destination (postPublishCatalog b source_netcdf cat0)).map Prod.fst).filter
        (fun i => !((source_netcdf.map Prod.fst).contains i)) ∧
    ∀ i ∈ source_netcdf.map Prod.fst,
      i ∉ (sync_resources b (fun _ => false) source_netcdf cat0).removed := by
  have h1 := removalLoop_no_failure (source_netcdf.map Prod.fst)
    (scan_destination (postPublishCatalog b source_netcdf cat0))
    (postPublishCatalog b source_netcdf cat0)
  refine ⟨by rw [sync_resources_removed]; exact h1.1, ?_⟩
  intro i hi hcontra
  rw [sync_resources_removed, h1.1] at hcontra
  have h2 := (List.mem_filter.mp hcontra).2
  have h3 : i ∉ source_netcdf.map Prod.fst := by simpa using h2
  exact h3 hi

/-- Witness for C3: a source-held identifier is not removed even though an
orphan sits in the catalog. -/
theorem sync_removes_exactly_orphans_witness :
    ("aaaabbbbccccddddeeeeffffgggghhhh" : String) ∉
      (sync_resources ⟨fun _ => false, fun _ => 5, fun _ c => c⟩ (fun _ => false)
        [("aaaabbbbccccddddeeeeffffgggghhhh", 5)]
        ⟨[("aaaabbbbccccddddeeeeffffgggghhhh", 9),
          ("zzzzyyyyxxxxwwwwvvvvuuuuttttssss", 2)]⟩).removed :=
  (sync_removes_exactly_orphans ⟨fun _ => false, fun _ => 5, fun _ c => c⟩
    [("aaaabbbbccccddddeeeeffffgggghhhh", 5)]
    ⟨[("aaaabbbbccccddddeeeeffffgggghhhh", 9),
      ("zzzzyyyyxxxxwwwwvvvvuuuuttttssss", 2)]⟩).2
    "aaaabbbbccccddddeeeeffffgggghhhh" (by decide)

/-- **C9**: removal failures are not caught anywhere in the driver: if the
delete of the first due entry `bad` fails, the error propagates out of the
run — exactly the entries before `bad` were removed and the rest of the
removal phase never runs — in contrast with publish failures, which are
isolated per item. -/
theorem sync_removal_failure_aborts (b : PublishBehavior) (rmFails : String → Bool)
    (source_netcdf : List (String × Timestamp)) (cat0 : Catalog)
    (pre post : List String) (bad : String)
    (hsplit : ((scan_destination (postPublishCatalog b source_netcdf cat0)).map
        Prod.fst).filter (fun i => !((source_netcdf.map Prod.fst).contains i)) =
      pre ++ bad :: post)
    (hpre : ∀ x ∈ pre, rmFails x = false) (hbad : rmFails bad = true) :
    (sync_resources b rmFails source_netcdf cat0).failure = some ⟨bad⟩ ∧
    (sync_resources b rmFails source_netcdf cat0).removed = pre := by
  have h := removalLoop_abort rmFails (source_netcdf.map Prod.fst)
    (scan_destination (postPublishCatalog b source_netcdf cat0))
    (postPublishCatalog b source_netcdf cat0) pre post bad hsplit hpre hbad
  exact ⟨by rw [sync_resources_failure]; exact h.2,
    by rw [sync_resources_removed]; exact h.1⟩

/-- Witness for C9: one orphan catalog entry whose delete fails makes the
run end with that error. -/
theorem sync_removal_failure_aborts_witness :
    (sync_resources ⟨fun _ => false, fun _ => 0, fun _ c => c⟩ (fun _ => true)
      [] ⟨[("zzzzyyyyxxxxwwwwvvvvuuuuttttssss", 1)]⟩).failure =
      some ⟨"zzzzyyyyxxxxwwwwvvvvuuuuttttssss"⟩ :=
  (sync_removal_failure_aborts ⟨fun _ => false, fun _ => 0, fun _ c => c⟩
    (fun _ => true) [] ⟨[("zzzzyyyyxxxxwwwwvvvvuuuuttttssss", 1)]⟩
    [] [] "zzzzyyyyxxxxwwwwvvvvuuuuttttssss" (by decide)
    (by intro x hx; cases hx) rfl).1

/-- **C10**: a top-level catalog entry whose name does not match the fixed
32-character identifier glob is invisible to sync: it never enters the
scanned destination inventory (so it is never used in a staleness
comparison), and the removal phase only ever removes glob-matching names,
so such an entry is never removed. -/
theorem sync_ignores_nonmatching_names (n : String)
    (hn : matchesResourceIdGlob n = false) :
    (∀ cat : Catalog, n ∉ (scan_destination cat).map Prod.fst) ∧
    (∀ (b : PublishBehavior) (rmFails : String → Bool)
       (source_netcdf : List (String × Timestamp)) (cat0 : Catalog),
      (∀ x ∈ (sync_resources b rmFails source_netcdf cat0).removed,
        matchesResourceIdGlob x = true) ∧
      n ∉ (sync_resources b rmFails source_netcdf cat0).removed) := by
  have hscan : ∀ cat : Catalog, n ∉ (scan_destination cat).map Prod.fst := by
    intro cat hmem
    rcases List.mem_map.mp hmem with ⟨e, he, hname⟩
    have hm := (List.mem_filter.mp he).2
    rw [hname, hn] at hm
    cases hm
  refine ⟨hscan, ?_⟩
  intro b rmFails source_netcdf cat0
  have hmatch : ∀ x ∈ (sync_resources b rmFails source_netcdf cat0).removed,
      matchesResourceIdGlob x = true := by
    intro x hx
    rw [sync_resources_removed] at hx
    have hsub := removalLoop_removed_subset (fun _ => rmFails _) _ _ _ x hx
    rcases List.mem_map.mp hsub with ⟨e, he, hname⟩
    have hm := (List.mem_filter.mp he).2
    rw [← hname]
    exact hm
  refine ⟨hmatch, fun hmem => ?_⟩
  have hm := hmatch n hmem
  rw [hn] at hm
  cases hm

/-- Witness for C10: a short-named entry is not in the scanned inventory. -/
theorem sync_ignores_nonmatching_names_witness :
    ("notes" : String) ∉ (scan_destination ⟨[("notes", 1)]⟩).map Prod.fst :=
  (sync_ignores_nonmatching_names "notes" (by decide)).1 ⟨[("notes", 1)]⟩
